import Mathlib

/-!
Verification development for the Stellar language front end
(scanner and parser of the `stellar-core` crate).

The Rust data model and operations are shallowly embedded as executable
Lean definitions.  Machine integers are modelled as `Nat`/`Int` with
explicit wrap-around where overflow matters; Rust panics are modelled by
a dedicated result constructor; fallible operations return a result sum.

Modelling conventions, used throughout:
* `u32` fields (`Location.line/column/index`) are `Nat`s; the only place
  where 32-bit arithmetic matters to a claim is `Span::len`, which is
  modelled twice: checked (debug-build: underflow panics, i.e. `none`)
  and wrapping (release-build: modulo `2^32`).
* `StringId` (a handle into a global deduplicating interner, with equal
  content iff equal id) is modelled by the interned `String` itself.
* `f64` values are not modelled; a `Float` token carries its lexeme.
  Whether Rust's `str::parse::<f64>` / `::<i64>` succeeds on the
  scanner's numeric lexemes is modelled exactly (`parseF64Ok`,
  `parseI64`).
* Rust `char` classification (`is_whitespace`, `is_alphabetic`,
  `is_numeric`, `is_alphanumeric`) is modelled on the ASCII range, where
  it agrees with the Unicode tables; characters outside ASCII are
  classified as none of these.  Every concrete input appearing in a
  theorem below is pure ASCII, so no settled claim depends on the
  difference.
* Loops are embedded either structurally (character-level loops recurse
  on the remaining character list) or with an explicit fuel parameter
  (token-level loops of the scanner, and the whole parser, whose
  `continue`-loop really can diverge); running out of fuel is a
  distinguished outcome `Res.out`, and termination claims are settled by
  fuel-sufficiency lemmas (or, for the divergent loops, by proving every
  fuel runs out).
-/

namespace Stellar

/-! ## Locations and spans (`lang/location.rs`, `location.rs`) -/

/-- Model of `Location` (`lang/location.rs`) and `ByteLocation`
(`location.rs`): line, column and byte index of one byte of source text.
The Rust fields are `u32`; they are modelled as `Nat`. -/
structure Location where
  line : Nat
  column : Nat
  index : Nat
deriving DecidableEq, Repr

/-- Model of `Location::sof()` / `ByteLocation::start_of_file()`. -/
def Location.sof : Location := ⟨1, 0, 0⟩

/-- Model of `Span` (`lang/location.rs`, `location.rs`): a byte range.
The Rust field `end` is named `endL` here (`end` is a Lean keyword). -/
structure Span where
  start : Location
  endL : Location
deriving DecidableEq, Repr

/-- Model of `Span::new`. -/
def Span.new (s e : Location) : Span := ⟨s, e⟩

def u32Mod : Nat := 2 ^ 32

/-- Model of `Span::len` as written in the source
(`self.start.index - self.end.index`), with `u32` subtraction in its
debug-build semantics: underflow panics, modelled by `none`. -/
def Span.lenChecked (s : Span) : Option Nat :=
  if s.endL.index ≤ s.start.index then some (s.start.index - s.endL.index) else none

/-- Model of `Span::len` as written in the source, with `u32` subtraction
in its release-build semantics: underflow wraps modulo `2^32`. -/
def Span.lenWrap (s : Span) : Nat :=
  (u32Mod + s.start.index - s.endL.index) % u32Mod

/-- Length of a span in bytes as the documentation describes it:
end byte index minus start byte index. -/
def Span.lenSpec (s : Span) : Nat := s.endL.index - s.start.index

/-! ## Character classification and numeric literal conversion -/

/-- Model of Rust `char::is_whitespace` on the ASCII range (the Unicode
White_Space characters above ASCII are not modelled). -/
def isWhitespaceChar (c : Char) : Bool :=
  c = ' ' || c = '\t' || c = '\n' || c = '\r' || c = '\x0b' || c = '\x0c'

/-- Model of Rust `char::is_numeric` on the ASCII range. -/
def isNumericChar (c : Char) : Bool :=
  '0' ≤ c && c ≤ '9'

/-- Model of Rust `char::is_alphabetic` on the ASCII range. -/
def isAlphabeticChar (c : Char) : Bool :=
  ('a' ≤ c && c ≤ 'z') || ('A' ≤ c && c ≤ 'Z')

/-- Model of Rust `char::is_alphanumeric` (alphabetic or numeric). -/
def isAlphanumericChar (c : Char) : Bool :=
  isAlphabeticChar c || isNumericChar c

/-- Numeric value of a list of ASCII digits, most significant first. -/
def digitsVal (cs : List Char) : Nat :=
  cs.foldl (fun acc c => 10 * acc + (c.toNat - '0'.toNat)) 0

def i64Max : Nat := 9223372036854775807

/-- Model of `str::parse::<i64>()` on the scanner's integer lexemes
(no sign is ever present): succeeds exactly on a non-empty string of
ASCII digits whose value fits in an `i64`. -/
def parseI64 (cs : List Char) : Option Int :=
  if cs ≠ [] && cs.all (fun c => c.isDigit) && digitsVal cs ≤ i64Max then
    some (digitsVal cs)
  else
    none

/-- Model of whether `str::parse::<f64>()` succeeds on the scanner's
float lexemes (digits and at most one dot): it fails only on `"."` or on
a lexeme containing a non-ASCII-digit character.  Overlong lexemes round
(possibly to infinity) but do not fail. -/
def parseF64Ok (cs : List Char) : Bool :=
  cs ≠ [] && cs.all (fun c => c.isDigit || c = '.') &&
    cs.any (fun c => c.isDigit) && cs.count '.' ≤ 1

/-! ## Token model (`lang/token.rs`) -/

/-- Model of `Keyword` (`lang/token.rs`).  `with` and `let` are Lean
keywords, hence the `Kw` suffix on those constructors. -/
inductive Keyword where
  | play
  | withKw
  | wait
  | sequence
  | loadSample
  | letKw
deriving DecidableEq, Repr

/-- Model of `Punctuator` (`lang/token.rs`). -/
inductive Punctuator where
  | exclamation
  | leftBrace
  | rightBrace
  | leftBracket
  | rightBracket
  | leftParen
  | rightParen
  | dot
  | colon
  | comma
deriving DecidableEq, Repr

/-- Model of `Operator` (`lang/token.rs`). -/
inductive Operator where
  | plus
  | minus
  | plusEq
  | minusEq
  | star
  | slash
  | assign
  | eq
  | exclamation
deriving DecidableEq, Repr

/-- Model of `Identifier` (`lang/token.rs`); the interned `Spur` name is
modelled by the string itself. -/
structure Identifier where
  name : String
  span : Span
deriving DecidableEq, Repr

/-- Model of `Token` (`lang/token.rs`), extended with the `String`
variant that `syntax/scan.rs` emits (its own `syntax/token.rs` is not in
the sources; the variant follows the spec's token list, and the parser
of `lang/parse.rs` has no case for it, which the embedding preserves by
letting it fall through to the catch-all arms).  A `Float` token carries
its lexeme instead of the unmodelled `f64` value. -/
inductive Token where
  | keyword (keyword : Keyword) (span : Span)
  | identifier (ident : Identifier)
  | operator (operator : Operator) (span : Span)
  | punctuator (punctuator : Punctuator) (span : Span)
  | float (lexeme : String) (span : Span)
  | integer (value : Int) (span : Span)
  | bool (value : Bool) (span : Span)
  | string (value : String) (span : Span)
  | endOfLine (span : Span)
  | endOfFile (location : Location)
deriving DecidableEq, Repr

/-- Model of `impl Spanned for Token` (`lang/token.rs`): every variant
returns its stored span; `EndOfFile` synthesizes the one-byte span that
starts at its location. -/
def Token.span : Token → Span
  | .endOfFile location =>
      Span.new location ⟨location.line, location.column + 1, location.index + 1⟩
  | .keyword _ span => span
  | .identifier i => i.span
  | .operator _ span => span
  | .punctuator _ span => span
  | .float _ span => span
  | .integer _ span => span
  | .bool _ span => span
  | .string _ span => span
  | .endOfLine span => span

/-- Model of `Token::is_end_of_file`. -/
def Token.isEndOfFile : Token → Bool
  | .endOfFile _ => true
  | _ => false

/-- Model of `Token::is_end_of_line`. -/
def Token.isEndOfLine : Token → Bool
  | .endOfLine _ => true
  | _ => false

/-- Model of `Token::is_keyword`. -/
def Token.isKeyword (t : Token) (k : Keyword) : Bool :=
  match t with
  | .keyword k' _ => k = k'
  | _ => false

/-- Model of `Token::is_punctuator`. -/
def Token.isPunctuator (t : Token) (p : Punctuator) : Bool :=
  match t with
  | .punctuator p' _ => p = p'
  | _ => false

/-- Model of `Token::is_operator`. -/
def Token.isOperator (t : Token) (o : Operator) : Bool :=
  match t with
  | .operator o' _ => o = o'
  | _ => false

/-! ## Token stream and cursor (`lang/token.rs`) -/

/-- Model of `TokenStream::get` (`lang/token.rs`): the `TokenStream` is
its token list; `none` models the panic of the Rust indexing
`self.0[index]`, which is reached exactly when `index == len` (the guard
is `index > self.0.len()`, not `>=`). -/
def tsGet (ts : List Token) (index : Nat) : Option Token :=
  if index > ts.length then
    some ((ts.getLast?).getD (Token.endOfFile Location.sof))
  else
    ts.get? index

/-- Model of `TokenStream::into_cursor`: `some` of the fresh cursor
position (0) when the stream ends with `EndOfFile`, `none` otherwise. -/
def intoCursor (ts : List Token) : Option Nat :=
  match ts.getLast? with
  | none => none
  | some t => if t.isEndOfFile then some 0 else none

/-- Model of `TokenStreamCursor::peek`; `none` models a panic inside
`TokenStream::get`. -/
def cursorPeek (ts : List Token) (location : Nat) : Option Token :=
  tsGet ts location

/-- Model of `TokenStreamCursor::next`: advances the position and reads
the token at the old position; `none` models a panic. -/
def cursorNext (ts : List Token) (location : Nat) : Option (Token × Nat) :=
  match tsGet ts location with
  | some t => some (t, location + 1)
  | none => none

/-! ## AST (`syntax/ast.rs`, the revision `lang/parse.rs` builds) -/

/-- Model of `BinaryOperatorKind` (`syntax/ast.rs`). -/
inductive BinaryOperatorKind where
  | plus
  | minus
  | star
  | slash
  | assign
deriving DecidableEq, Repr

/-- Model of `BinaryOperatorKind::precedence` (`syntax/ast.rs`). -/
def BinaryOperatorKind.precedence : BinaryOperatorKind → Nat
  | .assign => 1
  | .plus => 2
  | .minus => 2
  | .star => 3
  | .slash => 3

/-- Model of `PrefixOperatorKind` (`syntax/ast.rs`). -/
inductive PrefixOperatorKind where
  | exclamation
deriving DecidableEq, Repr

/-- Model of `Operator::into_binary_operator_kind` (`lang/token.rs`). -/
def Operator.intoBinaryOperatorKind : Operator → Option BinaryOperatorKind
  | .plus => some .plus
  | .minus => some .minus
  | .star => some .star
  | .slash => some .slash
  | .assign => some .assign
  | _ => none

/-- Model of `Operator::into_prefix_operator_kind` (`lang/token.rs`). -/
def Operator.intoPrefixOperatorKind : Operator → Option PrefixOperatorKind
  | .exclamation => some .exclamation
  | _ => none

/-- Model of `BinaryOperator` (`syntax/ast.rs`). -/
structure BinaryOperator where
  kind : BinaryOperatorKind
  span : Span
deriving DecidableEq, Repr

/-- Model of `PrefixOperator` (`syntax/ast.rs`). -/
structure PrefixOperator where
  kind : PrefixOperatorKind
  span : Span
deriving DecidableEq, Repr

/-- Model of `Expression` (`syntax/ast.rs`).  The constructor for the
Rust variant `Prefix` is named `prefixExpr`, and `Float` carries its
lexeme (see the conventions above). -/
inductive Expression where
  | float (lexeme : String) (span : Span)
  | integer (value : Int) (span : Span)
  | string (value : String) (span : Span)
  | bool (value : Bool) (span : Span)
  | binary (operator : BinaryOperator) (left : Expression) (right : Expression)
  | prefixExpr (operator : PrefixOperator) (operand : Expression)
  | list (expressions : List Expression) (span : Span)
  | identifier (ident : Identifier)
  | loadSample (sample : Expression) (span : Span)

/-- Model of `impl Spanned for Expression` (`syntax/ast.rs`). -/
def Expression.span : Expression → Span
  | .binary _ left right => Span.new left.span.start right.span.endL
  | .prefixExpr operator operand => Span.new operator.span.start operand.span.endL
  | .list _ span => span
  | .bool _ span => span
  | .float _ span => span
  | .string _ span => span
  | .integer _ span => span
  | .loadSample _ span => span
  | .identifier i => i.span

/-- Model of `Property` (`syntax/ast.rs`). -/
structure Property where
  name : Identifier
  value : Expression

mutual

/-- Model of `Statement` (`syntax/ast.rs`); `with` and `let` are Lean
keywords, hence the `S` suffix on those constructors. -/
inductive Statement where
  | wait (expression : Expression)
  | play (expression : Expression)
  | sequence (name : Identifier) (block : Block)
  | withS (properties : List Property) (block : Block)
  | letS (name : Identifier) (value : Expression)
  | expression (e : Expression)

/-- Model of `Block` (`syntax/ast.rs`). -/
inductive Block where
  | mk (statements : List Statement) (span : Span)

end

/-- Statements of a block. -/
def Block.statements : Block → List Statement
  | .mk statements _ => statements

/-- Span of a block. -/
def Block.span : Block → Span
  | .mk _ span => span

/-! ## Outcomes of a Rust computation

A call can run out of the modelling fuel (`out`, undecided), panic,
return `Err`, or return `Ok`. -/

inductive Res (ε α : Type) where
  | out : Res ε α
  | panic : Res ε α
  | err (e : ε) : Res ε α
  | ok (a : α) : Res ε α
deriving DecidableEq, Repr

/-- Sequencing of `Res` computations (Rust `?` propagation; `out` and
`panic` also propagate). -/
def Res.bind {ε α β : Type} : Res ε α → (α → Res ε β) → Res ε β
  | .out, _ => .out
  | .panic, _ => .panic
  | .err e, _ => .err e
  | .ok a, f => f a

instance {ε : Type} : Monad (Res ε) where
  pure := Res.ok
  bind := Res.bind

/-- Mapping over the `ok` value of a `Res`. -/
def Res.map {ε α β : Type} (f : α → β) : Res ε α → Res ε β
  | .out => .out
  | .panic => .panic
  | .err e => .err e
  | .ok a => .ok (f a)

@[simp]
theorem Res.bind_out {ε α β : Type} (f : α → Res ε β) : Res.bind .out f = .out := rfl

@[simp]
theorem Res.bind_panic {ε α β : Type} (f : α → Res ε β) : Res.bind .panic f = .panic := rfl

@[simp]
theorem Res.bind_err {ε α β : Type} (e : ε) (f : α → Res ε β) :
    Res.bind (.err e) f = .err e := rfl

@[simp]
theorem Res.bind_ok {ε α β : Type} (a : α) (f : α → Res ε β) :
    Res.bind (.ok a) f = f a := rfl

@[simp]
theorem Res.monad_bind_eq {ε α β : Type} (x : Res ε α) (f : α → Res ε β) :
    x >>= f = Res.bind x f := rfl

@[simp]
theorem Res.map_out {ε α β : Type} (f : α → β) : Res.map (ε := ε) f .out = .out := rfl

@[simp]
theorem Res.map_panic {ε α β : Type} (f : α → β) : Res.map (ε := ε) f .panic = .panic := rfl

@[simp]
theorem Res.map_err {ε α β : Type} (f : α → β) (e : ε) :
    Res.map f (.err e) = (.err e : Res ε β) := rfl

@[simp]
theorem Res.map_ok {ε α β : Type} (f : α → β) (a : α) :
    Res.map (ε := ε) f (.ok a) = .ok (f a) := rfl

/-! ## Character cursor (`lang/cursor.rs`, `syntax`'s cursor)

The cursor state is the list of remaining characters together with the
current `Location`.  `Cursor::next` updates the location: a newline
increments the line and resets the column, any other character
increments the column; the byte index always advances by the character's
UTF-8 length. -/

structure CState where
  rem : List Char
  loc : Location
deriving DecidableEq, Repr

/-- Location update performed by `Cursor::next` when consuming `c`. -/
def advance (l : Location) (c : Char) : Location :=
  if c = '\n' then
    ⟨l.line + 1, 0, l.index + c.utf8Size⟩
  else
    ⟨l.line, l.column + 1, l.index + c.utf8Size⟩

/-! ## Scanner (`syntax/scan.rs`) -/

/-- Model of `ScanError` (`syntax/scan.rs`). -/
inductive ScanError where
  | unexpectedCharacter (character : Char) (span : Span)
  | invalidEscapeSequence (character : Char) (span : Span)
  | unterminatedString (span : Span)
deriving DecidableEq, Repr

/-- Outcome of scanning one token: a panic (numeric `unwrap`), a scan
error, or a token together with the cursor state after it. -/
inductive NRes where
  | panic
  | error (e : ScanError)
  | tok (t : Token) (s : CState)
deriving DecidableEq, Repr

/-- Model of the whitespace/comment-skipping loop at the top of
`scan_next_token`.  The Rust nested `while` loops (outer trivia loop,
inner `#`-comment loop that consumes up to and including the newline)
are fused into one structurally recursive function; the flag records
being inside a comment. -/
def skipTrivia : List Char → Location → Bool → CState
  | [], loc, _ => ⟨[], loc⟩
  | c :: cs, loc, true =>
      -- Inside a comment: consume until a newline has been consumed.
      if c = '\n' then skipTrivia cs (advance loc c) false
      else skipTrivia cs (advance loc c) true
  | c :: cs, loc, false =>
      if isWhitespaceChar c && c ≠ '\n' then skipTrivia cs (advance loc c) false
      else if c = '#' then skipTrivia cs (advance loc c) true
      else ⟨c :: cs, loc⟩

/-- Model of the greedy loop of `scan_name` (`syntax/scan.rs`): consume
while alphanumeric or `_`, returning the consumed characters and the
state after them. -/
def scanNameLoop : List Char → Location → List Char → List Char × CState
  | [], loc, acc => (acc.reverse, ⟨[], loc⟩)
  | c :: cs, loc, acc =>
      if !isAlphanumericChar c && c ≠ '_' then (acc.reverse, ⟨c :: cs, loc⟩)
      else scanNameLoop cs (advance loc c) (c :: acc)

/-- Model of `keyword_from_name` (`syntax/scan.rs`). -/
def keywordFromName (name : String) : Option Keyword :=
  if name = "with" then some .withKw
  else if name = "wait" then some .wait
  else if name = "sequence" then some .sequence
  else if name = "play" then some .play
  else if name = "let" then some .letKw
  else if name = "load_sample" then some .loadSample
  else none

/-- Model of `scan_name` (`syntax/scan.rs`): greedy scan, then
classification against `true`/`false` and the keyword table; everything
else is an interned identifier. -/
def scanName (rem : List Char) (loc : Location) : Token × CState :=
  let r := scanNameLoop rem loc []
  let span := Span.new loc r.2.loc
  let name := String.mk r.1
  let tok :=
    if name = "true" then Token.bool true span
    else if name = "false" then Token.bool false span
    else
      match keywordFromName name with
      | some k => Token.keyword k span
      | none => Token.identifier ⟨name, span⟩
  (tok, r.2)

/-- Model of the greedy loop of `scan_number_or_dot`: consume digits and
at most one dot.  The consumed characters are accumulated directly; they
are exactly the source slice `source[start.index..end.index]` that the
Rust code takes afterwards. -/
def scanNumberLoop : List Char → Location → Bool → List Char → List Char × Bool × CState
  | [], loc, hasDot, acc => (acc.reverse, hasDot, ⟨[], loc⟩)
  | c :: cs, loc, hasDot, acc =>
      if isNumericChar c then scanNumberLoop cs (advance loc c) hasDot (c :: acc)
      else if c = '.' && !hasDot then scanNumberLoop cs (advance loc c) true (c :: acc)
      else (acc.reverse, hasDot, ⟨c :: cs, loc⟩)

/-- Model of `scan_number_or_dot` (`syntax/scan.rs`): a single consumed
byte that was a dot is the `Dot` punctuator; otherwise the lexeme is
converted with `parse::<f64>().unwrap()` / `parse::<i64>().unwrap()`,
whose failure is a panic. -/
def scanNumberOrDot (rem : List Char) (loc : Location) : NRes :=
  let r := scanNumberLoop rem loc false []
  let lexeme := r.1
  let hasDot := r.2.1
  let s := r.2.2
  if s.loc.index - loc.index = 1 && hasDot then
    .tok (.punctuator .dot (Span.new loc s.loc)) s
  else if hasDot then
    if parseF64Ok lexeme then .tok (.float (String.mk lexeme) (Span.new loc s.loc)) s
    else .panic
  else
    match parseI64 lexeme with
    | some v => .tok (.integer v (Span.new loc s.loc)) s
    | none => .panic

/-- Translation table of the string escapes `\n`, `\t`, `\r`, `\"`,
`\\` in `scan_string`; `none` for any other escaped character. -/
def unescape (c : Char) : Option Char :=
  if c = 'n' then some '\n'
  else if c = 't' then some '\t'
  else if c = 'r' then some '\r'
  else if c = '"' then some '"'
  else if c = '\\' then some '\\'
  else none

/-- Model of the character loop of `scan_string` (`syntax/scan.rs`),
entered after the opening quote has been consumed.  Arguments: remaining
characters, current location, location of the opening quote, content
accumulated so far (reversed). -/
def scanStringLoop : List Char → Location → Location → List Char → NRes
  | [], loc, start, _ => .error (.unterminatedString (Span.new start loc))
  | c :: cs, loc, start, acc =>
      let loc1 := advance loc c
      if c = '\\' then
        match cs with
        | [] => .error (.unterminatedString (Span.new start loc1))
        | e :: cs' =>
            let loc2 := advance loc1 e
            match unescape e with
            | some ch => scanStringLoop cs' loc2 start (ch :: acc)
            | none => .error (.invalidEscapeSequence e (Span.new start loc2))
      else if c = '"' then
        .tok (.string (String.mk acc.reverse) (Span.new start loc1)) ⟨cs, loc1⟩
      else
        scanStringLoop cs loc1 start (c :: acc)

/-- Model of `scan_string` (`syntax/scan.rs`), called with the cursor on
the opening quote. -/
def scanString : List Char → Location → NRes
  | [], loc => .error (.unterminatedString (Span.new loc loc))
  | c :: cs, loc => scanStringLoop cs (advance loc c) loc []

/-- Model of the punctuator/operator arm of `scan_next_token`
(`syntax/scan.rs`), i.e. of the `match_single_and_two_character_tokens!`
macro (`syntax/macros.rs`): two-character operators first, then
single-character operators, then punctuators, else
`UnexpectedCharacter`.  `start` is the location before `c`, which has
already been consumed; `rem`/`loc` is the state after it. -/
def scanPunctPair (op : Operator) (rem : List Char) (loc start : Location) : Option NRes :=
  match rem with
  | d :: ds =>
      if d = '=' then
        some (NRes.tok (.operator op (Span.new start (advance loc d))) ⟨ds, advance loc d⟩)
      else none
  | [] => none

def scanPunct (c : Char) (rem : List Char) (loc : Location) (start : Location) : NRes :=
  if c = '-' then
    match scanPunctPair .minusEq rem loc start with
    | some r => r
    | none => .tok (.operator .minus (Span.new start loc)) ⟨rem, loc⟩
  else if c = '+' then
    match scanPunctPair .plusEq rem loc start with
    | some r => r
    | none => .tok (.operator .plus (Span.new start loc)) ⟨rem, loc⟩
  else if c = '=' then
    match scanPunctPair .eq rem loc start with
    | some r => r
    | none => .tok (.operator .assign (Span.new start loc)) ⟨rem, loc⟩
  else if c = '*' then .tok (.operator .star (Span.new start loc)) ⟨rem, loc⟩
  else if c = '/' then .tok (.operator .slash (Span.new start loc)) ⟨rem, loc⟩
  else if c = '{' then .tok (.punctuator .leftBrace (Span.new start loc)) ⟨rem, loc⟩
  else if c = '}' then .tok (.punctuator .rightBrace (Span.new start loc)) ⟨rem, loc⟩
  else if c = '[' then .tok (.punctuator .leftBracket (Span.new start loc)) ⟨rem, loc⟩
  else if c = ']' then .tok (.punctuator .rightBracket (Span.new start loc)) ⟨rem, loc⟩
  else if c = '(' then .tok (.punctuator .leftParen (Span.new start loc)) ⟨rem, loc⟩
  else if c = ')' then .tok (.punctuator .rightParen (Span.new start loc)) ⟨rem, loc⟩
  else if c = ':' then .tok (.punctuator .colon (Span.new start loc)) ⟨rem, loc⟩
  else if c = '.' then .tok (.punctuator .dot (Span.new start loc)) ⟨rem, loc⟩
  else if c = ',' then .tok (.punctuator .comma (Span.new start loc)) ⟨rem, loc⟩
  else .error (.unexpectedCharacter c (Span.new start loc))

/-- Dispatch of `scan_next_token` (`syntax/scan.rs`) on the first
character after trivia; end of input yields the `EndOfFile` token. -/
def scanDispatch (rem : List Char) (loc : Location) : NRes :=
  match rem with
  | [] => .tok (.endOfFile loc) ⟨[], loc⟩
  | c :: cs =>
      if c = '\n' then
        .tok (.endOfLine (Span.new loc (advance loc c))) ⟨cs, advance loc c⟩
      else if c = '"' then scanString (c :: cs) loc
      else if isAlphabeticChar c || c = '_' then
        let r := scanName (c :: cs) loc
        .tok r.1 r.2
      else if isNumericChar c || c = '.' then scanNumberOrDot (c :: cs) loc
      else scanPunct c cs (advance loc c) loc

/-- Model of `scan_next_token` (`syntax/scan.rs`): skip whitespace and
comments, then dispatch on the next character. -/
def scanNextToken (rem : List Char) (loc : Location) : NRes :=
  let s := skipTrivia rem loc false
  scanDispatch s.rem s.loc

/-- Model of the token loop of `scan` (`syntax/scan.rs`): scan tokens
until `EndOfFile`, which is pushed before stopping.  Fuelled; each
non-`EndOfFile` token consumes at least one character, and
`scan` below supplies sufficient fuel (`scan_fuel_sufficient`). -/
def scanLoop : Nat → List Char → Location → Res ScanError (List Token)
  | 0, _, _ => .out
  | fuel + 1, rem, loc =>
      match scanNextToken rem loc with
      | .panic => .panic
      | .error e => .err e
      | .tok t s =>
          if t.isEndOfFile then .ok [t]
          else Res.map (fun l => t :: l) (scanLoop fuel s.rem s.loc)

/-- Model of `scan` (`syntax/scan.rs`). -/
def scan (source : String) : Res ScanError (List Token) :=
  scanLoop (source.toList.length + 1) source.toList Location.sof

/-! ## The older scanner (`lang/scan.rs`)

`lang/scan.rs` is an earlier revision of the scanner: its token model
has a `Punctuation` kind covering operators as well (that revision of
`token.rs` is not in the sources; the `Punctuation` variants are
reconstructed from their uses in `lang/scan.rs`), there are no string
literals, and `scan_name`'s loop condition reads
`!c.is_alphanumeric() || c == '_'` where the newer scanner has `&&`. -/

/-- Punctuation kinds used by `lang/scan.rs`. -/
inductive LPunctuation where
  | minus
  | plus
  | star
  | slash
  | leftBrace
  | rightBrace
  | leftBracket
  | rightBracket
  | leftParen
  | rightParen
  | colon
  | dot
  | comma
  | minusEq
  | plusEq
deriving DecidableEq, Repr

/-- Keywords emitted by `lang/scan.rs`. -/
inductive LKeyword where
  | withKw
  | wait
  | sequence
  | play
deriving DecidableEq, Repr

/-- Tokens of the `lang/scan.rs` revision. -/
inductive LToken where
  | keyword (keyword : LKeyword) (span : Span)
  | identifier (name : String) (span : Span)
  | punctuation (punctuation : LPunctuation) (span : Span)
  | float (lexeme : String) (span : Span)
  | integer (value : Int) (span : Span)
  | bool (value : Bool) (span : Span)
  | eol (span : Span)
  | eof (location : Location)
deriving DecidableEq, Repr

/-- Model of `ScanError` of `lang/scan.rs`. -/
inductive LScanError where
  | unexpectedCharacter (character : Char) (span : Span)
deriving DecidableEq, Repr

/-- Outcome of scanning one token in `lang/scan.rs`. -/
inductive LNRes where
  | panic
  | error (e : LScanError)
  | tok (t : LToken) (s : CState)
deriving DecidableEq, Repr

/-- Model of the greedy loop of `scan_name` in `lang/scan.rs`: note the
loop breaks when `!c.is_alphanumeric() || c == '_'` — in particular it
breaks immediately on `_` without consuming anything. -/
def langScanNameLoop : List Char → Location → List Char → List Char × CState
  | [], loc, acc => (acc.reverse, ⟨[], loc⟩)
  | c :: cs, loc, acc =>
      if !isAlphanumericChar c || c = '_' then (acc.reverse, ⟨c :: cs, loc⟩)
      else langScanNameLoop cs (advance loc c) (c :: acc)

/-- Model of `scan_name` (`lang/scan.rs`). -/
def langScanName (rem : List Char) (loc : Location) : LToken × CState :=
  let r := langScanNameLoop rem loc []
  let span := Span.new loc r.2.loc
  let name := String.mk r.1
  let tok :=
    if name = "with" then LToken.keyword .withKw span
    else if name = "wait" then LToken.keyword .wait span
    else if name = "sequence" then LToken.keyword .sequence span
    else if name = "play" then LToken.keyword .play span
    else if name = "true" then LToken.bool true span
    else if name = "false" then LToken.bool false span
    else LToken.identifier name span
  (tok, r.2)

/-- Model of `scan_number_or_dot` (`lang/scan.rs`), identical to the
newer revision up to the token type. -/
def langScanNumberOrDot (rem : List Char) (loc : Location) : LNRes :=
  let r := scanNumberLoop rem loc false []
  let lexeme := r.1
  let hasDot := r.2.1
  let s := r.2.2
  if s.loc.index - loc.index = 1 && hasDot then
    .tok (.punctuation .dot (Span.new loc s.loc)) s
  else if hasDot then
    if parseF64Ok lexeme then .tok (.float (String.mk lexeme) (Span.new loc s.loc)) s
    else .panic
  else
    match parseI64 lexeme with
    | some v => .tok (.integer v (Span.new loc s.loc)) s
    | none => .panic

/-- Model of the `match_punctuation!` arm of `scan_next_token`
(`lang/scan.rs`): the two-character pairs `-=` and `+=` first, then the
single-character table, else `UnexpectedCharacter`. -/
def langScanPunctPair (p : LPunctuation) (rem : List Char) (loc start : Location) :
    Option LNRes :=
  match rem with
  | d :: ds =>
      if d = '=' then
        some (LNRes.tok (.punctuation p (Span.new start (advance loc d))) ⟨ds, advance loc d⟩)
      else none
  | [] => none

def langScanPunct (c : Char) (rem : List Char) (loc : Location) (start : Location) : LNRes :=
  if c = '-' then
    match langScanPunctPair .minusEq rem loc start with
    | some r => r
    | none => .tok (.punctuation .minus (Span.new start loc)) ⟨rem, loc⟩
  else if c = '+' then
    match langScanPunctPair .plusEq rem loc start with
    | some r => r
    | none => .tok (.punctuation .plus (Span.new start loc)) ⟨rem, loc⟩
  else if c = '*' then .tok (.punctuation .star (Span.new start loc)) ⟨rem, loc⟩
  else if c = '/' then .tok (.punctuation .slash (Span.new start loc)) ⟨rem, loc⟩
  else if c = '{' then .tok (.punctuation .leftBrace (Span.new start loc)) ⟨rem, loc⟩
  else if c = '}' then .tok (.punctuation .rightBrace (Span.new start loc)) ⟨rem, loc⟩
  else if c = '[' then .tok (.punctuation .leftBracket (Span.new start loc)) ⟨rem, loc⟩
  else if c = ']' then .tok (.punctuation .rightBracket (Span.new start loc)) ⟨rem, loc⟩
  else if c = '(' then .tok (.punctuation .leftParen (Span.new start loc)) ⟨rem, loc⟩
  else if c = ')' then .tok (.punctuation .rightParen (Span.new start loc)) ⟨rem, loc⟩
  else if c = ':' then .tok (.punctuation .colon (Span.new start loc)) ⟨rem, loc⟩
  else if c = '.' then .tok (.punctuation .dot (Span.new start loc)) ⟨rem, loc⟩
  else if c = ',' then .tok (.punctuation .comma (Span.new start loc)) ⟨rem, loc⟩
  else .error (.unexpectedCharacter c (Span.new start loc))

/-- Model of `scan_next_token` (`lang/scan.rs`). -/
def langScanNextToken (rem : List Char) (loc : Location) : LNRes :=
  let s := skipTrivia rem loc false
  match s.rem with
  | [] => .tok (.eof s.loc) ⟨[], s.loc⟩
  | c :: cs =>
      if c = '\n' then
        .tok (.eol (Span.new s.loc (advance s.loc c))) ⟨cs, advance s.loc c⟩
      else if isAlphabeticChar c || c = '_' then
        let r := langScanName (c :: cs) s.loc
        .tok r.1 r.2
      else if isNumericChar c || c = '.' then langScanNumberOrDot (c :: cs) s.loc
      else langScanPunct c cs (advance s.loc c) s.loc

/-- Whether a `lang/scan.rs` token is the terminal `EOF`. -/
def LToken.isEof : LToken → Bool
  | .eof _ => true
  | _ => false

/-- Model of the token loop of `scan` (`lang/scan.rs`), fuelled.  Unlike
the newer scanner, no finite fuel suffices for every input: on `"_"`,
`scan_name` consumes nothing and the loop never reaches `EOF`
(theorem for claim C2). -/
def langScanLoop : Nat → List Char → Location → Res LScanError (List LToken)
  | 0, _, _ => .out
  | fuel + 1, rem, loc =>
      match langScanNextToken rem loc with
      | .panic => .panic
      | .error e => .err e
      | .tok t s =>
          if t.isEof then .ok [t]
          else Res.map (fun l => t :: l) (langScanLoop fuel s.rem s.loc)

/-- Model of `scan` (`lang/scan.rs`) at a given fuel. -/
def langScan (fuel : Nat) (source : String) : Res LScanError (List LToken) :=
  langScanLoop fuel source.toList Location.sof

/-! ## Parser (`lang/parse.rs`)

The parser operates on a `TokenStreamCursor` over a fixed token list
`ts`; only the cursor position is threaded.  Every Rust loop and every
recursive parsing function takes a fuel argument, decremented on entry;
all calls forward the decremented fuel.  `Res.out` (out of fuel) is a
distinguished outcome: the `continue` in
`parse_expression_with_precedence` makes the parser genuinely divergent
on some streams (claim C2), so no total embedding exists. -/

/-- Model of `ParseError` (`lang/parse.rs`). -/
inductive ParseError where
  | invalidTokenStream
  | expectedExpression (got : Token)
  | expectedIdentifier (got : Token)
  | expectedPunctuation (expected : Punctuator) (got : Token)
  | expectedOperator (expected : Operator) (got : Token)
deriving DecidableEq, Repr

/-- Lifting of the cursor's panic (`none`) into a parse outcome. -/
def ofPanic {α : Type} : Option α → Res ParseError α
  | some a => .ok a
  | none => .panic

/-- Model of `TokenStreamCursor::peek` inside the parser. -/
def peekT (ts : List Token) (p : Nat) : Res ParseError Token :=
  ofPanic (cursorPeek ts p)

/-- Model of `TokenStreamCursor::next` inside the parser. -/
def nextT (ts : List Token) (p : Nat) : Res ParseError (Token × Nat) :=
  ofPanic (cursorNext ts p)

/-- Model of `parse_identifier` (`lang/parse.rs`). -/
def parseIdentifierT (ts : List Token) (p : Nat) : Res ParseError (Identifier × Nat) :=
  Res.bind (nextT ts p) fun r =>
    match r.1 with
    | .identifier i => .ok (i, r.2)
    | got => .err (.expectedIdentifier got)

/-- Model of `parse_punctuator` (`lang/parse.rs`). -/
def parsePunctuatorT (ts : List Token) (p : Nat) (punctuator : Punctuator) :
    Res ParseError (Token × Nat) :=
  Res.bind (nextT ts p) fun r =>
    if r.1.isPunctuator punctuator then .ok r
    else .err (.expectedPunctuation punctuator r.1)

/-- Model of `parse_operator` (`lang/parse.rs`). -/
def parseOperatorT (ts : List Token) (p : Nat) (operator : Operator) :
    Res ParseError (Token × Nat) :=
  Res.bind (nextT ts p) fun r =>
    if r.1.isOperator operator then .ok r
    else .err (.expectedOperator operator r.1)

mutual

/-- Model of `skip_end_of_lines` (`lang/parse.rs`): advance while the
peeked token is `EndOfLine`; returns the new position. -/
def skipEols (fuel : Nat) (ts : List Token) (p : Nat) :
    Res ParseError Nat :=
  match fuel, ts, p with
  | 0, _, _ => .out
  | fuel + 1, ts, p =>
      Res.bind (peekT ts p) fun t =>
        if t.isEndOfLine then
          Res.bind (nextT ts p) fun r => skipEols fuel ts r.2
        else .ok p
termination_by structural fuel

/-- Model of the statement loop in `parse` (`lang/parse.rs`): skip
end-of-lines, stop on `EndOfFile`, else parse a statement and repeat. -/
def parseLoop (fuel : Nat) (ts : List Token) (p : Nat) :
    Res ParseError (List Statement × Nat) :=
  match fuel, ts, p with
  | 0, _, _ => .out
  | fuel + 1, ts, p =>
      Res.bind (skipEols fuel ts p) fun p =>
      Res.bind (peekT ts p) fun t =>
        if t.isEndOfFile then .ok ([], p)
        else
          Res.bind (parseStatement fuel ts p) fun r =>
          Res.bind (parseLoop fuel ts r.2) fun rs =>
            .ok (r.1 :: rs.1, rs.2)
termination_by structural fuel

/-- Model of `parse_statement` (`lang/parse.rs`): dispatch on the peeked
token, in the source's guard order. -/
def parseStatement (fuel : Nat) (ts : List Token) (p : Nat) :
    Res ParseError (Statement × Nat) :=
  match fuel, ts, p with
  | 0, _, _ => .out
  | fuel + 1, ts, p =>
      Res.bind (peekT ts p) fun t =>
        if t.isKeyword .play then
          Res.bind (nextT ts p) fun r =>
          Res.bind (parseExpression fuel ts r.2) fun e =>
            .ok (.play e.1, e.2)
        else if t.isKeyword .wait then
          Res.bind (nextT ts p) fun r =>
          Res.bind (parseExpression fuel ts r.2) fun e =>
            .ok (.wait e.1, e.2)
        else if t.isKeyword .sequence then parseSequenceStatement fuel ts p
        else if t.isKeyword .withKw then parseWithStatement fuel ts p
        else if t.isKeyword .letKw then parseLetStatement fuel ts p
        else
          Res.bind (parseExpression fuel ts p) fun e =>
            .ok (.expression e.1, e.2)
termination_by structural fuel

/-- Model of `parse_expression` (`lang/parse.rs`). -/
def parseExpression (fuel : Nat) (ts : List Token) (p : Nat) :
    Res ParseError (Expression × Nat) :=
  match fuel, ts, p with
  | 0, _, _ => .out
  | fuel + 1, ts, p => parseExpressionWithPrecedence fuel ts p 0
termination_by structural fuel

/-- Model of `parse_expression_with_precedence` (`lang/parse.rs`):
parse a prefix expression, then enter the binary-operator loop. -/
def parseExpressionWithPrecedence (fuel : Nat) (ts : List Token) (p : Nat) (precedence : Nat) :
    Res ParseError (Expression × Nat) :=
  match fuel, ts, p, precedence with
  | 0, _, _, _ => .out
  | fuel + 1, ts, p, precedence =>
      Res.bind (parsePrefixExpression fuel ts p) fun l =>
        binaryLoop fuel ts l.2 precedence l.1
termination_by structural fuel

/-- Model of the `while let Token::Operator … = cursor.peek()` loop of
`parse_expression_with_precedence`.  When the operator has no binary
kind the Rust code executes `continue`, which re-peeks the same token
with unchanged state: the model recurses with the same arguments,
consuming only fuel (the divergence of claim C2). -/
def binaryLoop (fuel : Nat) (ts : List Token) (p : Nat) (precedence : Nat) (left : Expression) :
    Res ParseError (Expression × Nat) :=
  match fuel, ts, p, precedence, left with
  | 0, _, _, _, _ => .out
  | fuel + 1, ts, p, precedence, left =>
      Res.bind (peekT ts p) fun t =>
        match t with
        | .operator operator operatorSpan =>
            (match operator.intoBinaryOperatorKind with
             | none => binaryLoop fuel ts p precedence left
             | some kind =>
                 if kind.precedence < precedence then .ok (left, p)
                 else
                   Res.bind (nextT ts p) fun r =>
                   Res.bind (skipEols fuel ts r.2) fun p =>
                   Res.bind (parseExpressionWithPrecedence fuel ts p (kind.precedence + 1))
                     fun right =>
                       binaryLoop fuel ts right.2 precedence
                         (.binary ⟨kind, operatorSpan⟩ left right.1))
        | _ => .ok (left, p)
termination_by structural fuel

/-- Model of `parse_prefix_expression` (`lang/parse.rs`), with the
source's match arms in order.  Note the unguarded `cursor.next()` after
the list loop: the Rust code uses whatever token follows as the closing
bracket. -/
def parsePrefixExpression (fuel : Nat) (ts : List Token) (p : Nat) :
    Res ParseError (Expression × Nat) :=
  match fuel, ts, p with
  | 0, _, _ => .out
  | fuel + 1, ts, p =>
      Res.bind (nextT ts p) fun r =>
        match r.1 with
        | .integer value span => .ok (.integer value span, r.2)
        | .float lexeme span => .ok (.float lexeme span, r.2)
        | .identifier i => .ok (.identifier i, r.2)
        | .punctuator .leftParen _ =>
            Res.bind (parseExpression fuel ts r.2) fun e =>
            Res.bind (parsePunctuatorT ts e.2 .rightParen) fun rp =>
              .ok (e.1, rp.2)
        | .punctuator .leftBracket span =>
            Res.bind (skipEols fuel ts r.2) fun p =>
            Res.bind (peekT ts p) fun t =>
              if t.isPunctuator .rightBracket then
                Res.bind (nextT ts p) fun rb =>
                  .ok (.list [] (Span.new span.start rb.1.span.endL), rb.2)
              else
                Res.bind (parseExpression fuel ts p) fun e =>
                Res.bind (skipEols fuel ts e.2) fun p =>
                Res.bind (listLoop fuel ts p) fun es =>
                Res.bind (nextT ts es.2) fun rb =>
                  .ok (.list (e.1 :: es.1) (Span.new span.start rb.1.span.endL), rb.2)
        | .keyword .loadSample span =>
            Res.bind (parseExpression fuel ts r.2) fun e =>
              .ok (.loadSample e.1 (Span.new span.start e.1.span.endL), e.2)
        | .operator operator operatorSpan =>
            (match operator.intoPrefixOperatorKind with
             | none => .err (.expectedExpression (.operator operator operatorSpan))
             | some kind =>
                 Res.bind (parsePrefixExpression fuel ts r.2) fun o =>
                   .ok (.prefixExpr ⟨kind, operatorSpan⟩ o.1, o.2))
        | got => .err (.expectedExpression got)
termination_by structural fuel

/-- Model of the comma loop of the list expression in
`parse_prefix_expression`: while the peeked token is a comma, consume
it, skip end-of-lines, stop before a closing bracket (trailing comma),
else parse the next element. -/
def listLoop (fuel : Nat) (ts : List Token) (p : Nat) :
    Res ParseError (List Expression × Nat) :=
  match fuel, ts, p with
  | 0, _, _ => .out
  | fuel + 1, ts, p =>
      Res.bind (peekT ts p) fun t =>
        if t.isPunctuator .comma then
          Res.bind (nextT ts p) fun r =>
          Res.bind (skipEols fuel ts r.2) fun p =>
          Res.bind (peekT ts p) fun t' =>
            if t'.isPunctuator .rightBracket then .ok ([], p)
            else
              Res.bind (parseExpression fuel ts p) fun e =>
              Res.bind (listLoop fuel ts e.2) fun es =>
                .ok (e.1 :: es.1, es.2)
        else .ok ([], p)
termination_by structural fuel

/-- Model of `parse_sequence_statement` (`lang/parse.rs`). -/
def parseSequenceStatement (fuel : Nat) (ts : List Token) (p : Nat) :
    Res ParseError (Statement × Nat) :=
  match fuel, ts, p with
  | 0, _, _ => .out
  | fuel + 1, ts, p =>
      Res.bind (nextT ts p) fun r =>
      Res.bind (parseIdentifierT ts r.2) fun name =>
      Res.bind (parseBlock fuel ts name.2) fun block =>
        .ok (.sequence name.1 block.1, block.2)
termination_by structural fuel

/-- Model of `parse_let_statement` (`lang/parse.rs`). -/
def parseLetStatement (fuel : Nat) (ts : List Token) (p : Nat) :
    Res ParseError (Statement × Nat) :=
  match fuel, ts, p with
  | 0, _, _ => .out
  | fuel + 1, ts, p =>
      Res.bind (nextT ts p) fun r =>
      Res.bind (parseIdentifierT ts r.2) fun name =>
      Res.bind (skipEols fuel ts name.2) fun p =>
      Res.bind (parseOperatorT ts p .assign) fun a =>
      Res.bind (skipEols fuel ts a.2) fun p =>
      Res.bind (parseExpression fuel ts p) fun value =>
        .ok (.letS name.1 value.1, value.2)

/-- Model of `parse_with_statement` (`lang/parse.rs`): one property,
then the comma loop, then the block. -/
def parseWithStatement (fuel : Nat) (ts : List Token) (p : Nat) :
    Res ParseError (Statement × Nat) :=
  match fuel, ts, p with
  | 0, _, _ => .out
  | fuel + 1, ts, p =>
      Res.bind (nextT ts p) fun r =>
      Res.bind (parseProperty fuel ts r.2) fun pr =>
      Res.bind (withLoop fuel ts pr.2) fun prs =>
      Res.bind (parseBlock fuel ts prs.2) fun block =>
        .ok (.withS (pr.1 :: prs.1) block.1, block.2)
termination_by structural fuel

/-- Model of the comma loop of `parse_with_statement`: while the peeked
token is a comma, consume it, stop before `{` (trailing comma), else
parse another property. -/
def withLoop (fuel : Nat) (ts : List Token) (p : Nat) :
    Res ParseError (List Property × Nat) :=
  match fuel, ts, p with
  | 0, _, _ => .out
  | fuel + 1, ts, p =>
      Res.bind (peekT ts p) fun t =>
        if t.isPunctuator .comma then
          Res.bind (nextT ts p) fun r =>
          Res.bind (peekT ts r.2) fun t' =>
            if t'.isPunctuator .leftBrace then .ok ([], r.2)
            else
              Res.bind (parseProperty fuel ts r.2) fun pr =>
              Res.bind (withLoop fuel ts pr.2) fun prs =>
                .ok (pr.1 :: prs.1, prs.2)
        else .ok ([], p)
termination_by structural fuel

/-- Model of the nested `parse_property` of `parse_with_statement`:
`identifier ':' expression`. -/
def parseProperty (fuel : Nat) (ts : List Token) (p : Nat) :
    Res ParseError (Property × Nat) :=
  match fuel, ts, p with
  | 0, _, _ => .out
  | fuel + 1, ts, p =>
      Res.bind (parseIdentifierT ts p) fun name =>
      Res.bind (parsePunctuatorT ts name.2 .colon) fun c =>
      Res.bind (parseExpression fuel ts c.2) fun value =>
        .ok (⟨name.1, value.1⟩, value.2)

/-- Model of `parse_block` (`lang/parse.rs`): require `{`, loop
statements until `}` is peeked, then the unguarded `cursor.next()`
consumes it. -/
def parseBlock (fuel : Nat) (ts : List Token) (p : Nat) :
    Res ParseError (Block × Nat) :=
  match fuel, ts, p with
  | 0, _, _ => .out
  | fuel + 1, ts, p =>
      Res.bind (parsePunctuatorT ts p .leftBrace) fun lb =>
      Res.bind (blockLoop fuel ts lb.2) fun stmts =>
      Res.bind (nextT ts stmts.2) fun rb =>
        .ok (.mk stmts.1 (Span.new lb.1.span.start rb.1.span.endL), rb.2)
termination_by structural fuel

/-- Model of the statement loop of `parse_block`: skip end-of-lines and
parse statements until `}` is peeked. -/
def blockLoop (fuel : Nat) (ts : List Token) (p : Nat) :
    Res ParseError (List Statement × Nat) :=
  match fuel, ts, p with
  | 0, _, _ => .out
  | fuel + 1, ts, p =>
      Res.bind (skipEols fuel ts p) fun p =>
      Res.bind (peekT ts p) fun t =>
        if t.isPunctuator .rightBrace then .ok ([], p)
        else
          Res.bind (parseStatement fuel ts p) fun r =>
          Res.bind (blockLoop fuel ts r.2) fun rs =>
            .ok (r.1 :: rs.1, rs.2)


termination_by structural fuel

end

/-- Model of `parse` (`lang/parse.rs`): `InvalidTokenStream` when
`into_cursor` fails, else the statement loop from position 0. -/
def parse (ts : List Token) (fuel : Nat) : Res ParseError (List Statement) :=
  match intoCursor ts with
  | none => .err .invalidTokenStream
  | some p => Res.map (fun r => r.1) (parseLoop fuel ts p)

/-- The scan-then-parse pipeline, as the CLI front end drives it; scan
errors and parse errors are kept apart in the sum. -/
def scanAndParse (source : String) (fuel : Nat) :
    Res (ScanError ⊕ ParseError) (List Statement) :=
  match scan source with
  | .out => .out
  | .panic => .panic
  | .err e => .err (.inl e)
  | .ok ts =>
      match parse ts fuel with
      | .out => .out
      | .panic => .panic
      | .err e => .err (.inr e)
      | .ok stmts => .ok stmts

/-! ## Span-free skeletons of AST nodes

Used to state parse results without spelling out every span: an
expression skeleton keeps the operator/literal structure (floats by
their lexeme, identifiers and strings by name), a statement skeleton
additionally keeps property names.  These are statement-side helper
definitions, not part of the code model. -/

inductive EShape where
  | float (lexeme : String)
  | integer (value : Int)
  | string (value : String)
  | bool (value : Bool)
  | binary (kind : BinaryOperatorKind) (left : EShape) (right : EShape)
  | prefixExpr (kind : PrefixOperatorKind) (operand : EShape)
  | list (elems : List EShape)
  | identifier (name : String)
  | loadSample (sample : EShape)
deriving Repr

mutual

/-- Skeleton of an expression. -/
def exprShape : Expression → EShape
  | .float lexeme _ => .float lexeme
  | .integer value _ => .integer value
  | .string value _ => .string value
  | .bool value _ => .bool value
  | .binary operator left right => .binary operator.kind (exprShape left) (exprShape right)
  | .prefixExpr operator operand => .prefixExpr operator.kind (exprShape operand)
  | .list es _ => .list (exprShapeList es)
  | .identifier i => .identifier i.name
  | .loadSample sample _ => .loadSample (exprShape sample)

/-- Skeletons of a list of expressions. -/
def exprShapeList : List Expression → List EShape
  | [] => []
  | e :: es => exprShape e :: exprShapeList es

end

inductive SShape where
  | wait (e : EShape)
  | play (e : EShape)
  | sequence (name : String) (block : List SShape)
  | withS (properties : List (String × EShape)) (block : List SShape)
  | letS (name : String) (value : EShape)
  | expression (e : EShape)
deriving Repr

mutual

/-- Skeleton of a statement. -/
def stmtShape : Statement → SShape
  | .wait e => .wait (exprShape e)
  | .play e => .play (exprShape e)
  | .sequence name block => .sequence name.name (blockShape block)
  | .withS properties block => .withS (propShapeList properties) (blockShape block)
  | .letS name value => .letS name.name (exprShape value)
  | .expression e => .expression (exprShape e)

/-- Skeletons of the statements of a block. -/
def blockShape : Block → List SShape
  | .mk statements _ => stmtShapeList statements

/-- Skeletons of a list of statements. -/
def stmtShapeList : List Statement → List SShape
  | [] => []
  | s :: ss => stmtShape s :: stmtShapeList ss

/-- Skeletons of a list of properties. -/
def propShapeList : List Property → List (String × EShape)
  | [] => []
  | pr :: prs => (pr.name.name, exprShape pr.value) :: propShapeList prs

end

/-- Start byte index of a statement, derived from its components (the
code defines `Spanned` for expressions, identifiers and properties, but
not for statements; this takes the start of the leading component). -/
def stmtStartIndex : Statement → Nat
  | .wait e => e.span.start.index
  | .play e => e.span.start.index
  | .sequence name _ => name.span.start.index
  | .withS properties block =>
      match properties with
      | pr :: _ => pr.name.span.start.index
      | [] => block.span.start.index
  | .letS name _ => name.span.start.index
  | .expression e => e.span.start.index

/-! ## Parser invariants: positions, span origins and prefix nodes
(claims C8 and C9) -/

/-- No token of the stream is the `Exclamation` operator (the only
operator with a prefix kind). -/
def tokensNoExcl (ts : List Token) : Bool :=
  ts.all fun t => !(t.isOperator .exclamation)

/-- The byte index `k` is the span start of some stream token with index
in `[p, p')`. -/
def startsAt (ts : List Token) (p p' k : Nat) : Prop :=
  ∃ j t, p ≤ j ∧ j < p' ∧ ts.get? j = some t ∧ k = t.span.start.index

mutual

/-- No `Prefix` node occurs in the expression. -/
def exprNoPrefix : Expression → Bool
  | .float _ _ => true
  | .integer _ _ => true
  | .string _ _ => true
  | .bool _ _ => true
  | .binary _ left right => exprNoPrefix left && exprNoPrefix right
  | .prefixExpr _ _ => false
  | .list es _ => exprListNoPrefix es
  | .identifier _ => true
  | .loadSample sample _ => exprNoPrefix sample

/-- No `Prefix` node occurs in any of the expressions. -/
def exprListNoPrefix : List Expression → Bool
  | [] => true
  | e :: es => exprNoPrefix e && exprListNoPrefix es

end

mutual

/-- No `Prefix` node occurs in the statement. -/
def stmtNoPrefix : Statement → Bool
  | .wait e => exprNoPrefix e
  | .play e => exprNoPrefix e
  | .sequence _ block => blockNoPrefix block
  | .withS properties block => propsNoPrefix properties && blockNoPrefix block
  | .letS _ value => exprNoPrefix value
  | .expression e => exprNoPrefix e

/-- No `Prefix` node occurs in the block. -/
def blockNoPrefix : Block → Bool
  | .mk statements _ => stmtsNoPrefix statements

/-- No `Prefix` node occurs in any of the statements. -/
def stmtsNoPrefix : List Statement → Bool
  | [] => true
  | s :: ss => stmtNoPrefix s && stmtsNoPrefix ss

/-- No `Prefix` node occurs in any of the property values. -/
def propsNoPrefix : List Property → Bool
  | [] => true
  | pr :: prs => exprNoPrefix pr.value && propsNoPrefix prs

end

/-- Successive statements with span-start witnesses drawn from
successive disjoint index ranges of the stream. -/
inductive StmtChain (ts : List Token) : List Statement → Nat → Nat → Prop where
  | nil (p p' : Nat) : p ≤ p' → StmtChain ts [] p p'
  | cons (s : Statement) (rest : List Statement) (p pmid p' : Nat) :
      startsAt ts p pmid (stmtStartIndex s) →
      StmtChain ts rest pmid p' →
      StmtChain ts (s :: rest) p p'

theorem Res.bind_ok_elim {ε α β : Type} {x : Res ε α} {f : α → Res ε β} {b : β}
    (h : Res.bind x f = .ok b) : ∃ a, x = .ok a ∧ f a = .ok b := by
  cases x with
  | out => cases h
  | panic => cases h
  | err e => cases h
  | ok a => exact ⟨a, rfl, h⟩

theorem mem_of_getLast?_eq {α : Type} {ts : List α} {t : α}
    (h : ts.getLast? = some t) : t ∈ ts := by
  obtain ⟨hne, heq⟩ :=
    List.mem_getLast?_eq_getLast (l := ts) (x := t) (by simp [Option.mem_def, h])
  rw [heq]
  exact List.getLast_mem hne

theorem tsGet_some_of_le {ts : List Token} {p : Nat} {t : Token} (hp : p ≤ ts.length)
    (h : tsGet ts p = some t) : p < ts.length ∧ ts.get? p = some t := by
  unfold tsGet at h
  split_ifs at h with hgt
  · omega
  · have hne : p ≠ ts.length := by
      intro he
      rw [he, List.get?_eq_none.mpr (le_refl _)] at h
      cases h
    exact ⟨by omega, h⟩

theorem tsGet_no_excl {ts : List Token} (hts : tokensNoExcl ts = true) {p : Nat} {t : Token}
    (h : tsGet ts p = some t) : t.isOperator .exclamation = false := by
  have hall := List.all_eq_true.mp hts
  unfold tsGet at h
  split_ifs at h with hgt
  · cases h
    cases hl : ts.getLast? with
    | none => simp [hl, Option.getD, Token.isOperator]
    | some t' =>
        have := hall t' (mem_of_getLast?_eq hl)
        simp only [hl, Option.getD_some]
        simpa using this
  · have := hall t (List.get?_mem h)
    simpa using this

theorem peekT_ok_elim {ts : List Token} {p : Nat} {t : Token} (h : peekT ts p = .ok t) :
    tsGet ts p = some t := by
  unfold peekT ofPanic at h
  revert h
  cases htg : cursorPeek ts p with
  | none => exact fun h => by cases h
  | some t' => exact fun h => by cases h; exact htg

theorem nextT_ok_elim {ts : List Token} {p : Nat} {t : Token} {q : Nat}
    (h : nextT ts p = .ok (t, q)) : tsGet ts p = some t ∧ q = p + 1 := by
  unfold nextT ofPanic cursorNext at h
  revert h
  cases htg : tsGet ts p with
  | none => exact fun h => by cases h
  | some t' => exact fun h => by cases h; exact ⟨rfl, rfl⟩

theorem parseIdentifierT_ok_elim {ts : List Token} {p : Nat} {i : Identifier} {q : Nat}
    (h : parseIdentifierT ts p = .ok (i, q)) :
    tsGet ts p = some (.identifier i) ∧ q = p + 1 := by
  unfold parseIdentifierT at h
  obtain ⟨r, hx, h⟩ := Res.bind_ok_elim h
  revert h
  split
  · rename_i i' heq
    intro h
    cases h
    obtain ⟨htg, hp'⟩ := nextT_ok_elim hx
    rw [heq] at htg
    exact ⟨htg, hp'⟩
  · intro h
    cases h

theorem parsePunctuatorT_ok_elim {ts : List Token} {p : Nat} {punctuator : Punctuator}
    {t : Token} {q : Nat} (h : parsePunctuatorT ts p punctuator = .ok (t, q)) :
    tsGet ts p = some t ∧ q = p + 1 := by
  unfold parsePunctuatorT at h
  obtain ⟨r, hx, h⟩ := Res.bind_ok_elim h
  revert h
  split
  · intro h
    cases h
    exact nextT_ok_elim hx
  · intro h
    cases h

theorem parseOperatorT_ok_elim {ts : List Token} {p : Nat} {operator : Operator}
    {t : Token} {q : Nat} (h : parseOperatorT ts p operator = .ok (t, q)) :
    tsGet ts p = some t ∧ q = p + 1 := by
  unfold parseOperatorT at h
  obtain ⟨r, hx, h⟩ := Res.bind_ok_elim h
  revert h
  split
  · intro h
    cases h
    exact nextT_ok_elim hx
  · intro h
    cases h

theorem skipEols_pos (fuel : Nat) (ts : List Token) (p : Nat) (hp : p ≤ ts.length) :
    ∀ p', skipEols fuel ts p = .ok p' → p ≤ p' ∧ p' ≤ ts.length := by
  cases fuel with
  | zero =>
      intro p' h
      cases h
  | succ f =>
      intro p' h
      simp only [skipEols] at h
      obtain ⟨t, hpeek, h⟩ := Res.bind_ok_elim h
      revert h
      split
      · intro h
        obtain ⟨r, hnext, h⟩ := Res.bind_ok_elim h
        obtain ⟨htg, hp1⟩ := nextT_ok_elim hnext
        have hlt := tsGet_some_of_le hp (peekT_ok_elim hpeek)
        have hrle : r.2 ≤ ts.length := by omega
        have := skipEols_pos f ts r.2 hrle p' h
        omega
      · intro h
        cases h
        exact ⟨le_refl _, hp⟩


mutual

theorem parseExpression_inv (fuel : Nat) (ts : List Token) (p : Nat) (hp : p ≤ ts.length) :
    ∀ e p', parseExpression fuel ts p = .ok (e, p') →
      (p ≤ p' ∧ p' ≤ ts.length) ∧ startsAt ts p p' e.span.start.index ∧
        (tokensNoExcl ts = true → exprNoPrefix e = true) := by
  cases fuel with
  | zero =>
      intro e p' h
      cases h
  | succ f =>
      intro e p' h
      simp only [parseExpression] at h
      exact parseExpressionWithPrecedence_inv f ts p 0 hp e p' h

theorem parseExpressionWithPrecedence_inv (fuel : Nat) (ts : List Token) (p : Nat)
    (precedence : Nat) (hp : p ≤ ts.length) :
    ∀ e p', parseExpressionWithPrecedence fuel ts p precedence = .ok (e, p') →
      (p ≤ p' ∧ p' ≤ ts.length) ∧ startsAt ts p p' e.span.start.index ∧
        (tokensNoExcl ts = true → exprNoPrefix e = true) := by
  cases fuel with
  | zero =>
      intro e p' h
      cases h
  | succ f =>
      intro e p' h
      simp only [parseExpressionWithPrecedence] at h
      obtain ⟨l, hpre, h⟩ := Res.bind_ok_elim h
      obtain ⟨l1, l2⟩ := l
      obtain ⟨⟨hl1, hl2⟩, hst, hnp⟩ := parsePrefixExpression_inv f ts p hp l1 l2 hpre
      obtain ⟨⟨hb1, hb2⟩, hbs, hbn⟩ := binaryLoop_inv f ts l2 precedence l1 hl2 e p' h
      refine ⟨⟨by omega, hb2⟩, ?_, fun hts => hbn hts (hnp hts)⟩
      rw [hbs]
      obtain ⟨j, t, hj1, hj2, hj3, hj4⟩ := hst
      exact ⟨j, t, hj1, by omega, hj3, hj4⟩

theorem binaryLoop_inv (fuel : Nat) (ts : List Token) (p : Nat) (precedence : Nat)
    (left : Expression) (hp : p ≤ ts.length) :
    ∀ e p', binaryLoop fuel ts p precedence left = .ok (e, p') →
      (p ≤ p' ∧ p' ≤ ts.length) ∧ e.span.start = left.span.start ∧
        (tokensNoExcl ts = true → exprNoPrefix left = true → exprNoPrefix e = true) := by
  cases fuel with
  | zero =>
      intro e p' h
      cases h
  | succ f =>
      intro e p' h
      simp only [binaryLoop] at h
      obtain ⟨t, hpeek, h⟩ := Res.bind_ok_elim h
      split at h
      · rename_i op opspan
        split at h
        · exact binaryLoop_inv f ts p precedence left hp e p' h
        · rename_i kind hbk
          split_ifs at h
          · cases h
            exact ⟨⟨le_refl _, hp⟩, rfl, fun _ hl => hl⟩
          · obtain ⟨r, hnext, h⟩ := Res.bind_ok_elim h
            obtain ⟨htg2, hr2⟩ := nextT_ok_elim hnext
            obtain ⟨hplt, _⟩ := tsGet_some_of_le hp htg2
            have hr2le : r.2 ≤ ts.length := by omega
            obtain ⟨p2, hskip, h⟩ := Res.bind_ok_elim h
            obtain ⟨hs1, hs2⟩ := skipEols_pos f ts r.2 hr2le p2 hskip
            obtain ⟨right, hrhs, h⟩ := Res.bind_ok_elim h
            obtain ⟨r1, r2⟩ := right
            obtain ⟨⟨hrh1, hrh2⟩, _, hrnp⟩ :=
              parseExpressionWithPrecedence_inv f ts p2 (kind.precedence + 1) hs2 r1 r2 hrhs
            obtain ⟨⟨hc1, hc2⟩, hcs, hcn⟩ :=
              binaryLoop_inv f ts r2 precedence
                (.binary ⟨kind, opspan⟩ left r1) hrh2 e p' h
            refine ⟨⟨by omega, hc2⟩, ?_, ?_⟩
            · rw [hcs]
              rfl
            · intro hts hl
              refine hcn hts ?_
              simp [exprNoPrefix, hl, hrnp hts]
      · cases h
        exact ⟨⟨le_refl _, hp⟩, rfl, fun _ hl => hl⟩

theorem parsePrefixExpression_inv (fuel : Nat) (ts : List Token) (p : Nat)
    (hp : p ≤ ts.length) :
    ∀ e p', parsePrefixExpression fuel ts p = .ok (e, p') →
      (p ≤ p' ∧ p' ≤ ts.length) ∧ startsAt ts p p' e.span.start.index ∧
        (tokensNoExcl ts = true → exprNoPrefix e = true) := by
  cases fuel with
  | zero =>
      intro e p' h
      cases h
  | succ f =>
      intro e p' h
      simp only [parsePrefixExpression] at h
      obtain ⟨r, hnext, h⟩ := Res.bind_ok_elim h
      obtain ⟨htg, hp1⟩ := nextT_ok_elim hnext
      obtain ⟨hplt, hget⟩ := tsGet_some_of_le hp htg
      have hp1le : r.2 ≤ ts.length := by omega
      split at h
      all_goals try exact Res.noConfusion h
      · -- integer literal
        rename_i value span heq
        cases h
        rw [heq] at hget
        exact ⟨⟨by omega, hp1le⟩,
          ⟨p, _, le_refl _, by omega, hget, rfl⟩,
          fun _ => by simp [exprNoPrefix]⟩
      · -- float literal
        rename_i lexeme span heq
        cases h
        rw [heq] at hget
        exact ⟨⟨by omega, hp1le⟩,
          ⟨p, _, le_refl _, by omega, hget, rfl⟩,
          fun _ => by simp [exprNoPrefix]⟩
      · -- identifier
        rename_i i heq
        cases h
        rw [heq] at hget
        exact ⟨⟨by omega, hp1le⟩,
          ⟨p, _, le_refl _, by omega, hget, rfl⟩,
          fun _ => by simp [exprNoPrefix]⟩
      · -- parenthesized expression
        rename_i span heq
        obtain ⟨ep, hexp, h⟩ := Res.bind_ok_elim h
        obtain ⟨⟨he1, he2⟩, hst, henp⟩ := parseExpression_inv f ts r.2 hp1le ep.1 ep.2 (by
          rw [← hexp])
        obtain ⟨rp, hrp, h⟩ := Res.bind_ok_elim h
        obtain ⟨htgrp, hrp2⟩ := parsePunctuatorT_ok_elim (q := rp.2) (t := rp.1) (by
          rw [← hrp])
        obtain ⟨he2lt, _⟩ := tsGet_some_of_le he2 htgrp
        cases h
        obtain ⟨j, t, hj1, hj2, hj3, hj4⟩ := hst
        exact ⟨⟨by omega, by omega⟩,
          ⟨j, t, by omega, by omega, hj3, hj4⟩,
          henp⟩
      · -- list expression
        rename_i span heq
        obtain ⟨p2, hskip, h⟩ := Res.bind_ok_elim h
        obtain ⟨hs1, hs2⟩ := skipEols_pos f ts r.2 hp1le p2 hskip
        obtain ⟨t2, hpeek2, h⟩ := Res.bind_ok_elim h
        obtain ⟨hp2lt, _⟩ := tsGet_some_of_le hs2 (peekT_ok_elim hpeek2)
        split at h
        · obtain ⟨rb, hnext2, h⟩ := Res.bind_ok_elim h
          obtain ⟨htg2, hrb2⟩ := nextT_ok_elim (q := rb.2) (t := rb.1) (by rw [← hnext2])
          cases h
          rw [heq] at hget
          refine ⟨⟨by omega, by omega⟩,
            ⟨p, _, le_refl _, by omega, hget, rfl⟩,
            fun _ => by simp [exprNoPrefix, exprListNoPrefix]⟩
        · obtain ⟨ep, hexp, h⟩ := Res.bind_ok_elim h
          obtain ⟨⟨he1, he2⟩, _, henp⟩ := parseExpression_inv f ts p2 hs2 ep.1 ep.2 (by
            rw [← hexp])
          obtain ⟨p3, hskip2, h⟩ := Res.bind_ok_elim h
          obtain ⟨hs3, hs4⟩ := skipEols_pos f ts ep.2 he2 p3 hskip2
          obtain ⟨esp, hlist, h⟩ := Res.bind_ok_elim h
          obtain ⟨⟨hl1, hl2⟩, hlnp⟩ := listLoop_inv f ts p3 hs4 esp.1 esp.2 (by
            rw [← hlist])
          obtain ⟨rb, hnext2, h⟩ := Res.bind_ok_elim h
          obtain ⟨htg2, hrb2⟩ := nextT_ok_elim (q := rb.2) (t := rb.1) (by rw [← hnext2])
          obtain ⟨hes2lt, _⟩ := tsGet_some_of_le hl2 htg2
          cases h
          rw [heq] at hget
          refine ⟨⟨by omega, by omega⟩,
            ⟨p, _, le_refl _, by omega, hget, rfl⟩,
            fun hts => by simp [exprNoPrefix, exprListNoPrefix, henp hts, hlnp hts]⟩
      · -- load_sample
        rename_i span heq
        obtain ⟨ep, hexp, h⟩ := Res.bind_ok_elim h
        obtain ⟨⟨he1, he2⟩, _, henp⟩ := parseExpression_inv f ts r.2 hp1le ep.1 ep.2 (by
          rw [← hexp])
        cases h
        rw [heq] at hget
        refine ⟨⟨by omega, he2⟩,
          ⟨p, _, le_refl _, by omega, hget, rfl⟩,
          fun hts => by simp [exprNoPrefix, henp hts]⟩
      · -- operator in prefix position
        rename_i op opspan heq
        split at h
        · exact Res.noConfusion h
        · rename_i kind hok
          obtain ⟨o, hpre, h⟩ := Res.bind_ok_elim h
          obtain ⟨⟨ho1, ho2⟩, _, _⟩ := parsePrefixExpression_inv f ts r.2 hp1le o.1 o.2 (by
            rw [← hpre])
          cases h
          rw [heq] at hget
          refine ⟨⟨by omega, ho2⟩,
            ⟨p, _, le_refl _, by omega, hget, rfl⟩,
            fun hts => ?_⟩
          exfalso
          have hne := tsGet_no_excl hts htg
          rw [heq] at hne
          cases op <;> simp [Operator.intoPrefixOperatorKind] at hok
          simp [Token.isOperator] at hne

theorem listLoop_inv (fuel : Nat) (ts : List Token) (p : Nat) (hp : p ≤ ts.length) :
    ∀ es p', listLoop fuel ts p = .ok (es, p') →
      (p ≤ p' ∧ p' ≤ ts.length) ∧
        (tokensNoExcl ts = true → exprListNoPrefix es = true) := by
  cases fuel with
  | zero =>
      intro es p' h
      cases h
  | succ f =>
      intro es p' h
      simp only [listLoop] at h
      obtain ⟨t, hpeek, h⟩ := Res.bind_ok_elim h
      revert h
      split
      · intro h
        obtain ⟨r, hnext, h⟩ := Res.bind_ok_elim h
        obtain ⟨htg, hr2⟩ := nextT_ok_elim hnext
        obtain ⟨hplt, _⟩ := tsGet_some_of_le hp htg
        have hr2le : r.2 ≤ ts.length := by omega
        obtain ⟨p2, hskip, h⟩ := Res.bind_ok_elim h
        obtain ⟨hs1, hs2⟩ := skipEols_pos f ts r.2 hr2le p2 hskip
        obtain ⟨t2, hpeek2, h⟩ := Res.bind_ok_elim h
        revert h
        split
        · intro h
          cases h
          exact ⟨⟨by omega, hs2⟩, fun _ => by simp [exprListNoPrefix]⟩
        · intro h
          obtain ⟨ep, hexp, h⟩ := Res.bind_ok_elim h
          obtain ⟨e1, e2⟩ := ep
          obtain ⟨⟨he1, he2⟩, _, henp⟩ := parseExpression_inv f ts p2 hs2 e1 e2 hexp
          obtain ⟨esp, hlist, h⟩ := Res.bind_ok_elim h
          obtain ⟨es1, es2⟩ := esp
          obtain ⟨⟨hl1, hl2⟩, hlnp⟩ := listLoop_inv f ts e2 he2 es1 es2 hlist
          cases h
          exact ⟨⟨by omega, hl2⟩,
            fun hts => by simp [exprListNoPrefix, henp hts, hlnp hts]⟩
      · intro h
        cases h
        exact ⟨⟨le_refl _, hp⟩, fun _ => by simp [exprListNoPrefix]⟩

end


theorem parseProperty_inv (fuel : Nat) (ts : List Token) (p : Nat) (hp : p ≤ ts.length) :
    ∀ pr p', parseProperty fuel ts p = .ok (pr, p') →
      (p < p' ∧ p' ≤ ts.length) ∧ ts.get? p = some (.identifier pr.name) ∧
        (tokensNoExcl ts = true → exprNoPrefix pr.value = true) := by
  cases fuel with
  | zero =>
      intro pr p' h
      cases h
  | succ f =>
      intro pr p' h
      simp only [parseProperty] at h
      obtain ⟨name, hid, h⟩ := Res.bind_ok_elim h
      obtain ⟨htg, hn2⟩ := parseIdentifierT_ok_elim (q := name.2) (i := name.1) (by
        rw [← hid])
      obtain ⟨hplt, hget⟩ := tsGet_some_of_le hp htg
      have hn2le : name.2 ≤ ts.length := by omega
      obtain ⟨c, hcolon, h⟩ := Res.bind_ok_elim h
      obtain ⟨htgc, hc2⟩ := parsePunctuatorT_ok_elim (q := c.2) (t := c.1) (by
        rw [← hcolon])
      obtain ⟨hn2lt, _⟩ := tsGet_some_of_le hn2le htgc
      have hc2le : c.2 ≤ ts.length := by omega
      obtain ⟨value, hval, h⟩ := Res.bind_ok_elim h
      obtain ⟨⟨hv1, hv2⟩, _, hvnp⟩ := parseExpression_inv f ts c.2 hc2le value.1 value.2 (by
        rw [← hval])
      cases h
      exact ⟨⟨by omega, hv2⟩, hget, hvnp⟩

theorem parseLetStatement_inv (fuel : Nat) (ts : List Token) (p : Nat) (hp : p ≤ ts.length) :
    ∀ s p', parseLetStatement fuel ts p = .ok (s, p') →
      (p ≤ p' ∧ p' ≤ ts.length) ∧ startsAt ts p p' (stmtStartIndex s) ∧
        (tokensNoExcl ts = true → stmtNoPrefix s = true) := by
  cases fuel with
  | zero =>
      intro s p' h
      cases h
  | succ f =>
      intro s p' h
      simp only [parseLetStatement] at h
      obtain ⟨r, hkw, h⟩ := Res.bind_ok_elim h
      obtain ⟨htg, hr2⟩ := nextT_ok_elim (q := r.2) (t := r.1) (by rw [← hkw])
      obtain ⟨hplt, _⟩ := tsGet_some_of_le hp htg
      have hr2le : r.2 ≤ ts.length := by omega
      obtain ⟨name, hid, h⟩ := Res.bind_ok_elim h
      obtain ⟨htgn, hn2⟩ := parseIdentifierT_ok_elim (q := name.2) (i := name.1) (by
        rw [← hid])
      obtain ⟨hr2lt, hgetn⟩ := tsGet_some_of_le hr2le htgn
      have hn2le : name.2 ≤ ts.length := by omega
      obtain ⟨p2, hskip, h⟩ := Res.bind_ok_elim h
      obtain ⟨hs1, hs2⟩ := skipEols_pos f ts name.2 hn2le p2 hskip
      obtain ⟨a, hassign, h⟩ := Res.bind_ok_elim h
      obtain ⟨htga, ha2⟩ := parseOperatorT_ok_elim (q := a.2) (t := a.1) (by
        rw [← hassign])
      obtain ⟨hp2lt, _⟩ := tsGet_some_of_le hs2 htga
      have ha2le : a.2 ≤ ts.length := by omega
      obtain ⟨p3, hskip2, h⟩ := Res.bind_ok_elim h
      obtain ⟨hs3, hs4⟩ := skipEols_pos f ts a.2 ha2le p3 hskip2
      obtain ⟨value, hval, h⟩ := Res.bind_ok_elim h
      obtain ⟨⟨hv1, hv2⟩, _, hvnp⟩ := parseExpression_inv f ts p3 hs4 value.1 value.2 (by
        rw [← hval])
      cases h
      refine ⟨⟨by omega, hv2⟩, ⟨r.2, _, by omega, by omega, hgetn, rfl⟩, fun hts => ?_⟩
      simp [stmtNoPrefix, hvnp hts]

theorem withLoop_inv (fuel : Nat) (ts : List Token) (p : Nat) (hp : p ≤ ts.length) :
    ∀ prs p', withLoop fuel ts p = .ok (prs, p') →
      (p ≤ p' ∧ p' ≤ ts.length) ∧
        (tokensNoExcl ts = true → propsNoPrefix prs = true) := by
  cases fuel with
  | zero =>
      intro prs p' h
      cases h
  | succ f =>
      intro prs p' h
      simp only [withLoop] at h
      obtain ⟨t, hpeek, h⟩ := Res.bind_ok_elim h
      split at h
      · obtain ⟨r, hnext, h⟩ := Res.bind_ok_elim h
        obtain ⟨htg, hr2⟩ := nextT_ok_elim (q := r.2) (t := r.1) (by rw [← hnext])
        obtain ⟨hplt, _⟩ := tsGet_some_of_le hp htg
        have hr2le : r.2 ≤ ts.length := by omega
        obtain ⟨t2, hpeek2, h⟩ := Res.bind_ok_elim h
        split at h
        · cases h
          exact ⟨⟨by omega, hr2le⟩, fun _ => by simp [propsNoPrefix]⟩
        · obtain ⟨pr, hprop, h⟩ := Res.bind_ok_elim h
          obtain ⟨⟨hpr1, hpr2⟩, _, hprnp⟩ := parseProperty_inv f ts r.2 hr2le pr.1 pr.2 (by
            rw [← hprop])
          obtain ⟨prs2, hloop, h⟩ := Res.bind_ok_elim h
          obtain ⟨⟨hl1, hl2⟩, hlnp⟩ := withLoop_inv f ts pr.2 hpr2 prs2.1 prs2.2 (by
            rw [← hloop])
          cases h
          exact ⟨⟨by omega, hl2⟩,
            fun hts => by simp [propsNoPrefix, hprnp hts, hlnp hts]⟩
      · cases h
        exact ⟨⟨le_refl _, hp⟩, fun _ => by simp [propsNoPrefix]⟩

mutual

theorem parseStatement_inv (fuel : Nat) (ts : List Token) (p : Nat) (hp : p ≤ ts.length) :
    ∀ s p', parseStatement fuel ts p = .ok (s, p') →
      (p ≤ p' ∧ p' ≤ ts.length) ∧ startsAt ts p p' (stmtStartIndex s) ∧
        (tokensNoExcl ts = true → stmtNoPrefix s = true) := by
  cases fuel with
  | zero =>
      intro s p' h
      cases h
  | succ f =>
      intro s p' h
      simp only [parseStatement] at h
      obtain ⟨t, hpeek, h⟩ := Res.bind_ok_elim h
      split at h
      · -- play
        obtain ⟨r, hnext, h⟩ := Res.bind_ok_elim h
        obtain ⟨htg, hr2⟩ := nextT_ok_elim (q := r.2) (t := r.1) (by rw [← hnext])
        obtain ⟨hplt, _⟩ := tsGet_some_of_le hp htg
        have hr2le : r.2 ≤ ts.length := by omega
        obtain ⟨e, hexp, h⟩ := Res.bind_ok_elim h
        obtain ⟨⟨he1, he2⟩, hst, henp⟩ := parseExpression_inv f ts r.2 hr2le e.1 e.2 (by
          rw [← hexp])
        cases h
        obtain ⟨j, tj, hj1, hj2, hj3, hj4⟩ := hst
        exact ⟨⟨by omega, he2⟩,
          ⟨j, tj, by omega, hj2, hj3, hj4⟩,
          fun hts => by simp [stmtNoPrefix, henp hts]⟩
      · split at h
        · -- wait
          obtain ⟨r, hnext, h⟩ := Res.bind_ok_elim h
          obtain ⟨htg, hr2⟩ := nextT_ok_elim (q := r.2) (t := r.1) (by rw [← hnext])
          obtain ⟨hplt, _⟩ := tsGet_some_of_le hp htg
          have hr2le : r.2 ≤ ts.length := by omega
          obtain ⟨e, hexp, h⟩ := Res.bind_ok_elim h
          obtain ⟨⟨he1, he2⟩, hst, henp⟩ := parseExpression_inv f ts r.2 hr2le e.1 e.2 (by
            rw [← hexp])
          cases h
          obtain ⟨j, tj, hj1, hj2, hj3, hj4⟩ := hst
          exact ⟨⟨by omega, he2⟩,
            ⟨j, tj, by omega, hj2, hj3, hj4⟩,
            fun hts => by simp [stmtNoPrefix, henp hts]⟩
        · split at h
          · exact parseSequenceStatement_inv f ts p hp s p' h
          · split at h
            · exact parseWithStatement_inv f ts p hp s p' h
            · split at h
              · exact parseLetStatement_inv f ts p hp s p' h
              · -- expression statement
                obtain ⟨e, hexp, h⟩ := Res.bind_ok_elim h
                obtain ⟨⟨he1, he2⟩, hst, henp⟩ := parseExpression_inv f ts p hp e.1 e.2 (by
                  rw [← hexp])
                cases h
                obtain ⟨j, tj, hj1, hj2, hj3, hj4⟩ := hst
                exact ⟨⟨he1, he2⟩,
                  ⟨j, tj, hj1, hj2, hj3, hj4⟩,
                  fun hts => by simp [stmtNoPrefix, henp hts]⟩

theorem parseSequenceStatement_inv (fuel : Nat) (ts : List Token) (p : Nat)
    (hp : p ≤ ts.length) :
    ∀ s p', parseSequenceStatement fuel ts p = .ok (s, p') →
      (p ≤ p' ∧ p' ≤ ts.length) ∧ startsAt ts p p' (stmtStartIndex s) ∧
        (tokensNoExcl ts = true → stmtNoPrefix s = true) := by
  cases fuel with
  | zero =>
      intro s p' h
      cases h
  | succ f =>
      intro s p' h
      simp only [parseSequenceStatement] at h
      obtain ⟨r, hkw, h⟩ := Res.bind_ok_elim h
      obtain ⟨htg, hr2⟩ := nextT_ok_elim (q := r.2) (t := r.1) (by rw [← hkw])
      obtain ⟨hplt, _⟩ := tsGet_some_of_le hp htg
      have hr2le : r.2 ≤ ts.length := by omega
      obtain ⟨name, hid, h⟩ := Res.bind_ok_elim h
      obtain ⟨htgn, hn2⟩ := parseIdentifierT_ok_elim (q := name.2) (i := name.1) (by
        rw [← hid])
      obtain ⟨hr2lt, hgetn⟩ := tsGet_some_of_le hr2le htgn
      have hn2le : name.2 ≤ ts.length := by omega
      obtain ⟨block, hblock, h⟩ := Res.bind_ok_elim h
      obtain ⟨⟨hb1, hb2⟩, hbnp⟩ := parseBlock_inv f ts name.2 hn2le block.1 block.2 (by
        rw [← hblock])
      cases h
      refine ⟨⟨by omega, hb2⟩, ⟨r.2, _, by omega, by omega, hgetn, rfl⟩, fun hts => ?_⟩
      simp [stmtNoPrefix, hbnp hts]

theorem parseWithStatement_inv (fuel : Nat) (ts : List Token) (p : Nat)
    (hp : p ≤ ts.length) :
    ∀ s p', parseWithStatement fuel ts p = .ok (s, p') →
      (p ≤ p' ∧ p' ≤ ts.length) ∧ startsAt ts p p' (stmtStartIndex s) ∧
        (tokensNoExcl ts = true → stmtNoPrefix s = true) := by
  cases fuel with
  | zero =>
      intro s p' h
      cases h
  | succ f =>
      intro s p' h
      simp only [parseWithStatement] at h
      obtain ⟨r, hkw, h⟩ := Res.bind_ok_elim h
      obtain ⟨htg, hr2⟩ := nextT_ok_elim (q := r.2) (t := r.1) (by rw [← hkw])
      obtain ⟨hplt, _⟩ := tsGet_some_of_le hp htg
      have hr2le : r.2 ≤ ts.length := by omega
      obtain ⟨pr, hprop, h⟩ := Res.bind_ok_elim h
      obtain ⟨⟨hpr1, hpr2⟩, hgetn, hprnp⟩ := parseProperty_inv f ts r.2 hr2le pr.1 pr.2 (by
        rw [← hprop])
      obtain ⟨prs, hloop, h⟩ := Res.bind_ok_elim h
      obtain ⟨⟨hl1, hl2⟩, hlnp⟩ := withLoop_inv f ts pr.2 hpr2 prs.1 prs.2 (by
        rw [← hloop])
      obtain ⟨block, hblock, h⟩ := Res.bind_ok_elim h
      obtain ⟨⟨hb1, hb2⟩, hbnp⟩ := parseBlock_inv f ts prs.2 hl2 block.1 block.2 (by
        rw [← hblock])
      cases h
      refine ⟨⟨by omega, hb2⟩, ⟨r.2, _, by omega, by omega, hgetn, rfl⟩, fun hts => ?_⟩
      simp [stmtNoPrefix, propsNoPrefix, hprnp hts, hlnp hts, hbnp hts]

theorem parseBlock_inv (fuel : Nat) (ts : List Token) (p : Nat) (hp : p ≤ ts.length) :
    ∀ b p', parseBlock fuel ts p = .ok (b, p') →
      (p ≤ p' ∧ p' ≤ ts.length) ∧
        (tokensNoExcl ts = true → blockNoPrefix b = true) := by
  cases fuel with
  | zero =>
      intro b p' h
      cases h
  | succ f =>
      intro b p' h
      simp only [parseBlock] at h
      obtain ⟨lb, hlb, h⟩ := Res.bind_ok_elim h
      obtain ⟨htg, hlb2⟩ := parsePunctuatorT_ok_elim (q := lb.2) (t := lb.1) (by
        rw [← hlb])
      obtain ⟨hplt, _⟩ := tsGet_some_of_le hp htg
      have hlb2le : lb.2 ≤ ts.length := by omega
      obtain ⟨stmts, hloop, h⟩ := Res.bind_ok_elim h
      obtain ⟨⟨hl1, hl2⟩, hlnp⟩ := blockLoop_inv f ts lb.2 hlb2le stmts.1 stmts.2 (by
        rw [← hloop])
      obtain ⟨rb, hrb, h⟩ := Res.bind_ok_elim h
      obtain ⟨htgrb, hrb2⟩ := nextT_ok_elim (q := rb.2) (t := rb.1) (by rw [← hrb])
      obtain ⟨hstlt, _⟩ := tsGet_some_of_le hl2 htgrb
      cases h
      refine ⟨⟨by omega, by omega⟩, fun hts => ?_⟩
      simp [blockNoPrefix, hlnp hts]

theorem blockLoop_inv (fuel : Nat) (ts : List Token) (p : Nat) (hp : p ≤ ts.length) :
    ∀ ss p', blockLoop fuel ts p = .ok (ss, p') →
      (p ≤ p' ∧ p' ≤ ts.length) ∧
        (tokensNoExcl ts = true → stmtsNoPrefix ss = true) := by
  cases fuel with
  | zero =>
      intro ss p' h
      cases h
  | succ f =>
      intro ss p' h
      simp only [blockLoop] at h
      obtain ⟨p2, hskip, h⟩ := Res.bind_ok_elim h
      obtain ⟨hs1, hs2⟩ := skipEols_pos f ts p hp p2 hskip
      obtain ⟨t, hpeek, h⟩ := Res.bind_ok_elim h
      split at h
      · cases h
        exact ⟨⟨hs1, hs2⟩, fun _ => by simp [stmtsNoPrefix]⟩
      · obtain ⟨r, hstmt, h⟩ := Res.bind_ok_elim h
        obtain ⟨⟨hr1, hr2⟩, _, hrnp⟩ := parseStatement_inv f ts p2 hs2 r.1 r.2 (by
          rw [← hstmt])
        obtain ⟨rs, hloop, h⟩ := Res.bind_ok_elim h
        obtain ⟨⟨hl1, hl2⟩, hlnp⟩ := blockLoop_inv f ts r.2 hr2 rs.1 rs.2 (by
          rw [← hloop])
        cases h
        exact ⟨⟨by omega, hl2⟩,
          fun hts => by simp [stmtsNoPrefix, hrnp hts, hlnp hts]⟩

end

theorem parseLoop_inv (fuel : Nat) (ts : List Token) (p : Nat) (hp : p ≤ ts.length) :
    ∀ ss p', parseLoop fuel ts p = .ok (ss, p') →
      (p ≤ p' ∧ p' ≤ ts.length) ∧ StmtChain ts ss p p' ∧
        (tokensNoExcl ts = true → stmtsNoPrefix ss = true) := by
  cases fuel with
  | zero =>
      intro ss p' h
      cases h
  | succ f =>
      intro ss p' h
      simp only [parseLoop] at h
      obtain ⟨p2, hskip, h⟩ := Res.bind_ok_elim h
      obtain ⟨hs1, hs2⟩ := skipEols_pos f ts p hp p2 hskip
      obtain ⟨t, hpeek, h⟩ := Res.bind_ok_elim h
      split at h
      · cases h
        exact ⟨⟨hs1, hs2⟩, .nil _ _ hs1, fun _ => by simp [stmtsNoPrefix]⟩
      · obtain ⟨r, hstmt, h⟩ := Res.bind_ok_elim h
        obtain ⟨⟨hr1, hr2⟩, hst, hrnp⟩ := parseStatement_inv f ts p2 hs2 r.1 r.2 (by
          rw [← hstmt])
        obtain ⟨rs, hloop, h⟩ := Res.bind_ok_elim h
        obtain ⟨⟨hl1, hl2⟩, hchain, hlnp⟩ := parseLoop_inv f ts r.2 hr2 rs.1 rs.2 (by
          rw [← hloop])
        cases h
        obtain ⟨j, tj, hj1, hj2, hj3, hj4⟩ := hst
        refine ⟨⟨by omega, hl2⟩,
          .cons _ _ _ _ _ ⟨j, tj, by omega, hj2, hj3, hj4⟩ hchain,
          fun hts => by simp [stmtsNoPrefix, hrnp hts, hlnp hts]⟩


theorem intoCursor_some_zero {ts : List Token} {c : Nat} (h : intoCursor ts = some c) :
    c = 0 := by
  unfold intoCursor at h
  revert h
  cases ts.getLast? with
  | none => exact fun h => by cases h
  | some t =>
      show (if t.isEndOfFile = true then some 0 else none) = some c → c = 0
      intro h
      split_ifs at h
      cases h
      rfl

theorem parse_ok_elim {ts : List Token} {fuel : Nat} {stmts : List Statement}
    (h : parse ts fuel = .ok stmts) :
    ∃ p', parseLoop fuel ts 0 = .ok (stmts, p') := by
  unfold parse at h
  cases hic : intoCursor ts with
  | none =>
      rw [hic] at h
      cases h
  | some c =>
      rw [hic] at h
      have hc0 : c = 0 := intoCursor_some_zero hic
      subst hc0
      have h' : Res.map (fun r => r.1) (parseLoop fuel ts 0) = .ok stmts := h
      cases hpl : parseLoop fuel ts 0 with
      | ok r =>
          rw [hpl] at h'
          simp only [Res.map] at h'
          cases h'
          exact ⟨r.2, rfl⟩
      | out =>
          rw [hpl] at h'
          cases h'
      | panic =>
          rw [hpl] at h'
          cases h'
      | err e =>
          rw [hpl] at h'
          cases h'

theorem pairwise_get?_rel {α : Type} {R : α → α → Prop} {l : List α}
    (h : List.Pairwise R l) {i j : Nat} {a b : α} (hij : i < j)
    (ha : l.get? i = some a) (hb : l.get? j = some b) : R a b := by
  have hi : i < l.length := by
    by_contra hcon
    rw [List.get?_eq_none.mpr (by omega)] at ha
    cases ha
  have hj : j < l.length := by
    by_contra hcon
    rw [List.get?_eq_none.mpr (by omega)] at hb
    cases hb
  have hrel := (List.pairwise_iff_get.mp h) ⟨i, hi⟩ ⟨j, hj⟩ hij
  rw [List.get?_eq_get hi] at ha
  rw [List.get?_eq_get hj] at hb
  cases ha
  cases hb
  exact hrel

theorem stmtChain_lower {ts : List Token} : ∀ {ss : List Statement} {p p' : Nat},
    StmtChain ts ss p p' → ∀ s ∈ ss, ∃ j t, p ≤ j ∧ ts.get? j = some t ∧
      stmtStartIndex s = t.span.start.index := by
  intro ss p p' h
  induction h with
  | nil => simp
  | cons s rest p pmid p' hstart hchain ih =>
      intro s' hs'
      rcases List.mem_cons.mp hs' with rfl | hmem
      · obtain ⟨j, t, hj1, hj2, hj3, hj4⟩ := hstart
        exact ⟨j, t, hj1, hj3, hj4⟩
      · obtain ⟨j, t, hj1, hj2, hj3⟩ := ih s' hmem
        obtain ⟨j0, t0, hk1, hk2, _, _⟩ := hstart
        exact ⟨j, t, by omega, hj2, hj3⟩

theorem stmtChain_pairwise {ts : List Token}
    (hmono : List.Pairwise (fun a b => a.span.start.index < b.span.start.index) ts) :
    ∀ {ss : List Statement} {p p' : Nat}, StmtChain ts ss p p' →
    List.Pairwise (· < ·) (ss.map stmtStartIndex) := by
  intro ss p p' h
  induction h with
  | nil => simp
  | cons s rest p pmid p' hstart hchain ih =>
      simp only [List.map_cons, List.pairwise_cons]
      refine ⟨?_, ih⟩
      intro k hk
      obtain ⟨s', hs', rfl⟩ := List.mem_map.mp hk
      obtain ⟨j1, t1, hj1, hj2, hj3, hj4⟩ := hstart
      obtain ⟨j2, t2, hk1, hk2, hk3⟩ := stmtChain_lower hchain s' hs'
      rw [hj4, hk3]
      exact pairwise_get?_rel hmono (by omega) hj3 hk2

/-! The newer scanner never emits the `Exclamation` operator (claim C9):
the two-character table holds `MinusEq`, `PlusEq` and `Eq`, the
single-character table `Minus`, `Plus`, `Star`, `Slash` and `Assign`;
`!` itself falls through to `UnexpectedCharacter`. -/

theorem scanPunctPair_some_shape (op : Operator) (rem : List Char) (loc start : Location)
    (r : NRes) (h : scanPunctPair op rem loc start = some r) :
    ∀ t s, r = NRes.tok t s → ∃ sp, t = .operator op sp := by
  intro t s ht
  subst ht
  cases rem with
  | nil => simp [scanPunctPair] at h
  | cons d ds =>
      simp only [scanPunctPair] at h
      split_ifs at h
      cases h
      exact ⟨_, rfl⟩

theorem scanStringLoop_tok_not_excl (n : Nat) :
    ∀ (rem : List Char), rem.length ≤ n → ∀ (loc start : Location) (acc : List Char)
      (t : Token) (s : CState),
    scanStringLoop rem loc start acc = .tok t s →
      t.isOperator .exclamation = false := by
  induction n with
  | zero =>
      intro rem hn loc start acc t s h
      have he : rem = [] := List.eq_nil_of_length_eq_zero (Nat.le_zero.mp hn)
      subst he
      rw [scanStringLoop.eq_1] at h
      cases h
  | succ n ih =>
      intro rem hn loc start acc t s h
      match rem, hn with
      | [], _ =>
          rw [scanStringLoop.eq_1] at h
          cases h
      | [c], hn =>
          rw [scanStringLoop.eq_2] at h
          split_ifs at h
          · cases h
            rfl
          · rw [scanStringLoop.eq_1] at h
            cases h
      | c :: e :: cs', hn =>
          rw [scanStringLoop.eq_3] at h
          split_ifs at h
          · cases hu : unescape e with
            | some ch =>
                rw [hu] at h
                have h' : scanStringLoop cs' (advance (advance loc c) e) start (ch :: acc) =
                    .tok t s := h
                exact ih cs' (by simp only [List.length_cons] at hn; omega) _ _ _ _ _ h'
            | none =>
                rw [hu] at h
                have h' : NRes.error
                    (ScanError.invalidEscapeSequence e
                      (Span.new start (advance (advance loc c) e))) = NRes.tok t s := h
                cases h'
          · cases h
            rfl
          · exact ih (e :: cs')
              (by simp only [List.length_cons] at hn ⊢; omega) _ _ _ _ _ h

set_option maxHeartbeats 1000000 in
theorem scanPunct_no_excl (c : Char) (rem : List Char) (loc start : Location)
    (t : Token) (s : CState) (h : scanPunct c rem loc start = .tok t s) :
    t.isOperator .exclamation = false := by
  unfold scanPunct at h
  by_cases h0 : c = '-'
  · rw [if_pos h0] at h
    revert h
    cases hp0 : scanPunctPair .minusEq rem loc start with
    | some r =>
        intro h
        obtain ⟨sp, hsp⟩ := scanPunctPair_some_shape _ _ _ _ _ hp0 t s h
        rw [hsp]
        rfl
    | none =>
        intro h
        cases h
        rfl
  · rw [if_neg h0] at h
    by_cases h1 : c = '+'
    · rw [if_pos h1] at h
      revert h
      cases hp1 : scanPunctPair .plusEq rem loc start with
      | some r =>
          intro h
          obtain ⟨sp, hsp⟩ := scanPunctPair_some_shape _ _ _ _ _ hp1 t s h
          rw [hsp]
          rfl
      | none =>
          intro h
          cases h
          rfl
    · rw [if_neg h1] at h
      by_cases h2 : c = '='
      · rw [if_pos h2] at h
        revert h
        cases hp2 : scanPunctPair .eq rem loc start with
        | some r =>
            intro h
            obtain ⟨sp, hsp⟩ := scanPunctPair_some_shape _ _ _ _ _ hp2 t s h
            rw [hsp]
            rfl
        | none =>
            intro h
            cases h
            rfl
      · rw [if_neg h2] at h
        by_cases h3 : c = '*'
        · rw [if_pos h3] at h
          cases h
          rfl
        · rw [if_neg h3] at h
          by_cases h4 : c = '/'
          · rw [if_pos h4] at h
            cases h
            rfl
          · rw [if_neg h4] at h
            by_cases h5 : c = '{'
            · rw [if_pos h5] at h
              cases h
              rfl
            · rw [if_neg h5] at h
              by_cases h6 : c = '}'
              · rw [if_pos h6] at h
                cases h
                rfl
              · rw [if_neg h6] at h
                by_cases h7 : c = '['
                · rw [if_pos h7] at h
                  cases h
                  rfl
                · rw [if_neg h7] at h
                  by_cases h8 : c = ']'
                  · rw [if_pos h8] at h
                    cases h
                    rfl
                  · rw [if_neg h8] at h
                    by_cases h9 : c = '('
                    · rw [if_pos h9] at h
                      cases h
                      rfl
                    · rw [if_neg h9] at h
                      by_cases h10 : c = ')'
                      · rw [if_pos h10] at h
                        cases h
                        rfl
                      · rw [if_neg h10] at h
                        by_cases h11 : c = ':'
                        · rw [if_pos h11] at h
                          cases h
                          rfl
                        · rw [if_neg h11] at h
                          by_cases h12 : c = '.'
                          · rw [if_pos h12] at h
                            cases h
                            rfl
                          · rw [if_neg h12] at h
                            by_cases h13 : c = ','
                            · rw [if_pos h13] at h
                              cases h
                              rfl
                            · rw [if_neg h13] at h
                              cases h

theorem scanName_not_op (rem : List Char) (loc : Location) :
    (scanName rem loc).1.isOperator .exclamation = false := by
  unfold scanName
  dsimp only
  split_ifs <;> try rfl
  split <;> rfl

theorem scanNumberOrDot_no_excl (rem : List Char) (loc : Location) (t : Token) (s : CState)
    (h : scanNumberOrDot rem loc = .tok t s) : t.isOperator .exclamation = false := by
  simp only [scanNumberOrDot] at h
  split_ifs at h
  · cases h
    rfl
  · cases h
    rfl
  · revert h
    cases hm : parseI64 (scanNumberLoop rem loc false []).1 with
    | some v =>
        intro h
        cases h
        rfl
    | none =>
        intro h
        cases h

theorem scanDispatch_no_excl (rem : List Char) (loc : Location) (t : Token) (s : CState)
    (h : scanDispatch rem loc = .tok t s) : t.isOperator .exclamation = false := by
  cases rem with
  | nil =>
      rw [scanDispatch.eq_1] at h
      cases h
      rfl
  | cons c cs =>
      rw [scanDispatch.eq_2] at h
      split_ifs at h with h1 h2 h3 h4
      · cases h
        rfl
      · exact scanStringLoop_tok_not_excl cs.length cs (le_refl _) _ _ _ _ _ h
      · cases h
        exact scanName_not_op (c :: cs) loc
      · exact scanNumberOrDot_no_excl _ _ _ _ h
      · exact scanPunct_no_excl c cs _ _ _ _ h

theorem scanNextToken_no_excl (rem : List Char) (loc : Location) (t : Token) (s : CState)
    (h : scanNextToken rem loc = .tok t s) : t.isOperator .exclamation = false := by
  unfold scanNextToken at h
  exact scanDispatch_no_excl _ _ _ _ h

theorem scanLoop_no_excl (fuel : Nat) : ∀ (rem : List Char) (loc : Location) (ts : List Token),
    scanLoop fuel rem loc = .ok ts → tokensNoExcl ts = true := by
  induction fuel with
  | zero =>
      intro rem loc ts h
      cases h
  | succ f ih =>
      intro rem loc ts h
      simp only [scanLoop] at h
      cases hn : scanNextToken rem loc with
      | panic =>
          rw [hn] at h
          cases h
      | error e =>
          rw [hn] at h
          cases h
      | tok t s =>
          rw [hn] at h
          by_cases he : t.isEndOfFile = true
          · simp only [he, if_true] at h
            cases h
            simp [tokensNoExcl, scanNextToken_no_excl _ _ _ _ hn]
          · simp only [he, Bool.false_eq_true, if_false] at h
            cases hsl : scanLoop f s.rem s.loc <;> rw [hsl] at h <;>
              simp only [Res.map] at h <;> cases h
            have h1 := scanNextToken_no_excl _ _ _ _ hn
            have h2 := ih s.rem s.loc _ hsl
            simp only [tokensNoExcl, List.all_cons] at h2 ⊢
            simp [h1, h2]


/-! ## Claim theorems -/

set_option maxHeartbeats 4000000 in
/-- C1: the claim says that once the cursor index reaches or passes the
final `EndOfFile` token, `peek()` and `next()` return a copy of it.  The
code violates this: `TokenStream::get` guards with `index > len` instead
of `index >= len`, so at `index == len` the Rust indexing `self.0[index]`
panics (modelled by `none`), contradicting the function's own
documentation ("In case index is out of bounds, EOF token is
returned").  Beyond `len` the saturation does work, and the panic is
reachable from source text: parsing the scan of `"[1"` panics. -/
theorem claim_C1_cursor_get_off_by_one_panics :
    cursorPeek [Token.endOfFile Location.sof] 1 = none ∧
    cursorNext [Token.endOfFile Location.sof] 1 = none ∧
    cursorPeek [Token.endOfFile Location.sof] 2 = some (Token.endOfFile Location.sof) ∧
    cursorNext [Token.endOfFile Location.sof] 2 =
      some (Token.endOfFile Location.sof, 3) ∧
    scanAndParse "[1" 64 = .panic :=
  ⟨rfl, rfl, rfl, rfl, rfl⟩

/-! No parser function other than the entry `parse` can produce the
`InvalidTokenStream` error, for claim C4. -/

theorem Res.bind_ne_inv {α β : Type} {x : Res ParseError α} {f : α → Res ParseError β}
    (hx : x ≠ .err .invalidTokenStream) (hf : ∀ a, f a ≠ .err .invalidTokenStream) :
    Res.bind x f ≠ .err .invalidTokenStream := by
  cases x with
  | out => simp [Res.bind]
  | panic => simp [Res.bind]
  | err e => simpa using hx
  | ok a => simpa using hf a

theorem ofPanic_ne_inv {α : Type} (o : Option α) :
    ofPanic o ≠ .err .invalidTokenStream := by
  cases o <;> simp [ofPanic]

theorem peekT_not_inv (ts : List Token) (p : Nat) :
    peekT ts p ≠ .err .invalidTokenStream :=
  ofPanic_ne_inv _

theorem nextT_not_inv (ts : List Token) (p : Nat) :
    nextT ts p ≠ .err .invalidTokenStream :=
  ofPanic_ne_inv _

theorem parseIdentifierT_not_inv (ts : List Token) (p : Nat) :
    parseIdentifierT ts p ≠ .err .invalidTokenStream := by
  unfold parseIdentifierT
  refine Res.bind_ne_inv (nextT_not_inv ts p) ?_
  intro r
  split <;> simp

theorem parsePunctuatorT_not_inv (ts : List Token) (p : Nat) (punctuator : Punctuator) :
    parsePunctuatorT ts p punctuator ≠ .err .invalidTokenStream := by
  unfold parsePunctuatorT
  refine Res.bind_ne_inv (nextT_not_inv ts p) ?_
  intro r
  split <;> simp

theorem parseOperatorT_not_inv (ts : List Token) (p : Nat) (operator : Operator) :
    parseOperatorT ts p operator ≠ .err .invalidTokenStream := by
  unfold parseOperatorT
  refine Res.bind_ne_inv (nextT_not_inv ts p) ?_
  intro r
  split <;> simp

theorem skipEols_not_inv (fuel : Nat) (ts : List Token) (p : Nat) :
    skipEols fuel ts p ≠ .err .invalidTokenStream := by
  cases fuel with
  | zero => simp [skipEols]
  | succ f =>
      simp only [skipEols]
      refine Res.bind_ne_inv (peekT_not_inv ts p) ?_
      intro t
      split
      · exact Res.bind_ne_inv (nextT_not_inv ts p) fun r => skipEols_not_inv f ts r.2
      · simp

mutual

theorem parseExpression_not_inv (fuel : Nat) (ts : List Token) (p : Nat) :
    parseExpression fuel ts p ≠ .err .invalidTokenStream := by
  cases fuel with
  | zero => simp [parseExpression]
  | succ f =>
      simp only [parseExpression]
      exact parseExpressionWithPrecedence_not_inv f ts p 0

theorem parseExpressionWithPrecedence_not_inv (fuel : Nat) (ts : List Token)
    (p : Nat) (precedence : Nat) :
    parseExpressionWithPrecedence fuel ts p precedence ≠ .err .invalidTokenStream := by
  cases fuel with
  | zero => simp [parseExpressionWithPrecedence]
  | succ f =>
      simp only [parseExpressionWithPrecedence]
      refine Res.bind_ne_inv (parsePrefixExpression_not_inv f ts p) ?_
      intro l
      exact binaryLoop_not_inv f ts l.2 precedence l.1

theorem binaryLoop_not_inv (fuel : Nat) (ts : List Token) (p : Nat)
    (precedence : Nat) (left : Expression) :
    binaryLoop fuel ts p precedence left ≠ .err .invalidTokenStream := by
  cases fuel with
  | zero => simp [binaryLoop]
  | succ f =>
      simp only [binaryLoop]
      refine Res.bind_ne_inv (peekT_not_inv ts p) ?_
      intro t
      split
      · split
        · exact binaryLoop_not_inv f ts p precedence left
        · split
          · simp
          · refine Res.bind_ne_inv (nextT_not_inv ts p) ?_
            intro r
            refine Res.bind_ne_inv (skipEols_not_inv f ts r.2) ?_
            intro p2
            refine Res.bind_ne_inv (parseExpressionWithPrecedence_not_inv f ts p2 _) ?_
            intro right
            exact binaryLoop_not_inv f ts right.2 precedence _
      · simp

theorem parsePrefixExpression_not_inv (fuel : Nat) (ts : List Token) (p : Nat) :
    parsePrefixExpression fuel ts p ≠ .err .invalidTokenStream := by
  cases fuel with
  | zero => simp [parsePrefixExpression]
  | succ f =>
      simp only [parsePrefixExpression]
      refine Res.bind_ne_inv (nextT_not_inv ts p) ?_
      intro r
      split
      · simp
      · simp
      · simp
      · refine Res.bind_ne_inv (parseExpression_not_inv f ts r.2) ?_
        intro e
        refine Res.bind_ne_inv (parsePunctuatorT_not_inv ts e.2 .rightParen) ?_
        intro rp
        simp
      · refine Res.bind_ne_inv (skipEols_not_inv f ts r.2) ?_
        intro p2
        refine Res.bind_ne_inv (peekT_not_inv ts p2) ?_
        intro t2
        split
        · refine Res.bind_ne_inv (nextT_not_inv ts p2) ?_
          intro rb
          simp
        · refine Res.bind_ne_inv (parseExpression_not_inv f ts p2) ?_
          intro e
          refine Res.bind_ne_inv (skipEols_not_inv f ts e.2) ?_
          intro p3
          refine Res.bind_ne_inv (listLoop_not_inv f ts p3) ?_
          intro es
          refine Res.bind_ne_inv (nextT_not_inv ts es.2) ?_
          intro rb
          simp
      · refine Res.bind_ne_inv (parseExpression_not_inv f ts r.2) ?_
        intro e
        simp
      · split
        · simp
        · refine Res.bind_ne_inv (parsePrefixExpression_not_inv f ts r.2) ?_
          intro o
          simp
      · simp

theorem listLoop_not_inv (fuel : Nat) (ts : List Token) (p : Nat) :
    listLoop fuel ts p ≠ .err .invalidTokenStream := by
  cases fuel with
  | zero => simp [listLoop]
  | succ f =>
      simp only [listLoop]
      refine Res.bind_ne_inv (peekT_not_inv ts p) ?_
      intro t
      split
      · refine Res.bind_ne_inv (nextT_not_inv ts p) ?_
        intro r
        refine Res.bind_ne_inv (skipEols_not_inv f ts r.2) ?_
        intro p2
        refine Res.bind_ne_inv (peekT_not_inv ts p2) ?_
        intro t2
        split
        · simp
        · refine Res.bind_ne_inv (parseExpression_not_inv f ts p2) ?_
          intro e
          refine Res.bind_ne_inv (listLoop_not_inv f ts e.2) ?_
          intro es
          simp
      · simp

end

theorem parseProperty_not_inv (fuel : Nat) (ts : List Token) (p : Nat) :
    parseProperty fuel ts p ≠ .err .invalidTokenStream := by
  cases fuel with
  | zero => simp [parseProperty]
  | succ f =>
      simp only [parseProperty]
      refine Res.bind_ne_inv (parseIdentifierT_not_inv ts p) ?_
      intro name
      refine Res.bind_ne_inv (parsePunctuatorT_not_inv ts name.2 .colon) ?_
      intro c
      refine Res.bind_ne_inv (parseExpression_not_inv f ts c.2) ?_
      intro value
      simp

theorem parseLetStatement_not_inv (fuel : Nat) (ts : List Token) (p : Nat) :
    parseLetStatement fuel ts p ≠ .err .invalidTokenStream := by
  cases fuel with
  | zero => simp [parseLetStatement]
  | succ f =>
      simp only [parseLetStatement]
      refine Res.bind_ne_inv (nextT_not_inv ts p) ?_
      intro r
      refine Res.bind_ne_inv (parseIdentifierT_not_inv ts r.2) ?_
      intro name
      refine Res.bind_ne_inv (skipEols_not_inv f ts name.2) ?_
      intro p2
      refine Res.bind_ne_inv (parseOperatorT_not_inv ts p2 .assign) ?_
      intro a
      refine Res.bind_ne_inv (skipEols_not_inv f ts a.2) ?_
      intro p3
      refine Res.bind_ne_inv (parseExpression_not_inv f ts p3) ?_
      intro value
      simp

theorem withLoop_not_inv (fuel : Nat) (ts : List Token) (p : Nat) :
    withLoop fuel ts p ≠ .err .invalidTokenStream := by
  cases fuel with
  | zero => simp [withLoop]
  | succ f =>
      simp only [withLoop]
      refine Res.bind_ne_inv (peekT_not_inv ts p) ?_
      intro t
      split
      · refine Res.bind_ne_inv (nextT_not_inv ts p) ?_
        intro r
        refine Res.bind_ne_inv (peekT_not_inv ts r.2) ?_
        intro t2
        split
        · simp
        · refine Res.bind_ne_inv (parseProperty_not_inv f ts r.2) ?_
          intro pr
          refine Res.bind_ne_inv (withLoop_not_inv f ts pr.2) ?_
          intro prs
          simp
      · simp

mutual

theorem parseStatement_not_inv (fuel : Nat) (ts : List Token) (p : Nat) :
    parseStatement fuel ts p ≠ .err .invalidTokenStream := by
  cases fuel with
  | zero => simp [parseStatement]
  | succ f =>
      simp only [parseStatement]
      refine Res.bind_ne_inv (peekT_not_inv ts p) ?_
      intro t
      split
      · refine Res.bind_ne_inv (nextT_not_inv ts p) ?_
        intro r
        refine Res.bind_ne_inv (parseExpression_not_inv f ts r.2) ?_
        intro e
        simp
      · split
        · refine Res.bind_ne_inv (nextT_not_inv ts p) ?_
          intro r
          refine Res.bind_ne_inv (parseExpression_not_inv f ts r.2) ?_
          intro e
          simp
        · split
          · exact parseSequenceStatement_not_inv f ts p
          · split
            · exact parseWithStatement_not_inv f ts p
            · split
              · exact parseLetStatement_not_inv f ts p
              · refine Res.bind_ne_inv (parseExpression_not_inv f ts p) ?_
                intro e
                simp

theorem parseSequenceStatement_not_inv (fuel : Nat) (ts : List Token) (p : Nat) :
    parseSequenceStatement fuel ts p ≠ .err .invalidTokenStream := by
  cases fuel with
  | zero => simp [parseSequenceStatement]
  | succ f =>
      simp only [parseSequenceStatement]
      refine Res.bind_ne_inv (nextT_not_inv ts p) ?_
      intro r
      refine Res.bind_ne_inv (parseIdentifierT_not_inv ts r.2) ?_
      intro name
      refine Res.bind_ne_inv (parseBlock_not_inv f ts name.2) ?_
      intro block
      simp

theorem parseWithStatement_not_inv (fuel : Nat) (ts : List Token) (p : Nat) :
    parseWithStatement fuel ts p ≠ .err .invalidTokenStream := by
  cases fuel with
  | zero => simp [parseWithStatement]
  | succ f =>
      simp only [parseWithStatement]
      refine Res.bind_ne_inv (nextT_not_inv ts p) ?_
      intro r
      refine Res.bind_ne_inv (parseProperty_not_inv f ts r.2) ?_
      intro pr
      refine Res.bind_ne_inv (withLoop_not_inv f ts pr.2) ?_
      intro prs
      refine Res.bind_ne_inv (parseBlock_not_inv f ts prs.2) ?_
      intro block
      simp

theorem parseBlock_not_inv (fuel : Nat) (ts : List Token) (p : Nat) :
    parseBlock fuel ts p ≠ .err .invalidTokenStream := by
  cases fuel with
  | zero => simp [parseBlock]
  | succ f =>
      simp only [parseBlock]
      refine Res.bind_ne_inv (parsePunctuatorT_not_inv ts p .leftBrace) ?_
      intro lb
      refine Res.bind_ne_inv (blockLoop_not_inv f ts lb.2) ?_
      intro stmts
      refine Res.bind_ne_inv (nextT_not_inv ts stmts.2) ?_
      intro rb
      simp

theorem blockLoop_not_inv (fuel : Nat) (ts : List Token) (p : Nat) :
    blockLoop fuel ts p ≠ .err .invalidTokenStream := by
  cases fuel with
  | zero => simp [blockLoop]
  | succ f =>
      simp only [blockLoop]
      refine Res.bind_ne_inv (skipEols_not_inv f ts p) ?_
      intro p2
      refine Res.bind_ne_inv (peekT_not_inv ts p2) ?_
      intro t
      split
      · simp
      · refine Res.bind_ne_inv (parseStatement_not_inv f ts p2) ?_
        intro r
        refine Res.bind_ne_inv (blockLoop_not_inv f ts r.2) ?_
        intro rs
        simp

end

theorem parseLoop_not_inv (fuel : Nat) (ts : List Token) (p : Nat) :
    parseLoop fuel ts p ≠ .err .invalidTokenStream := by
  cases fuel with
  | zero => simp [parseLoop]
  | succ f =>
      simp only [parseLoop]
      refine Res.bind_ne_inv (skipEols_not_inv f ts p) ?_
      intro p2
      refine Res.bind_ne_inv (peekT_not_inv ts p2) ?_
      intro t
      split
      · simp
      · refine Res.bind_ne_inv (parseStatement_not_inv f ts p2) ?_
        intro r
        refine Res.bind_ne_inv (parseLoop_not_inv f ts r.2) ?_
        intro rs
        simp

/-- The token-stream invariant of the spec: non-empty and ending in
`EndOfFile`. -/
def validStream (ts : List Token) : Prop :=
  ∃ t, ts.getLast? = some t ∧ t.isEndOfFile = true

instance (ts : List Token) : Decidable (validStream ts) := by
  unfold validStream
  cases ts.getLast? with
  | none => exact .isFalse (by simp)
  | some t => exact decidable_of_iff (t.isEndOfFile = true) (by simp)

/-- C4: `into_cursor` returns `None` exactly for the streams violating
the invariant (empty, or last token not `EndOfFile`), `parse` returns
the `InvalidTokenStream` error exactly for those streams (at every
fuel), and every invariant-satisfying stream proceeds to the statement
loop. -/
theorem claim_C4_invalid_token_stream_exactly (ts : List Token) (fuel : Nat) :
    (intoCursor ts = none ↔ ¬ validStream ts) ∧
    (parse ts fuel = .err .invalidTokenStream ↔ ¬ validStream ts) ∧
    (validStream ts → parse ts fuel = Res.map (fun r => r.1) (parseLoop fuel ts 0)) := by
  have hcursor : intoCursor ts = none ↔ ¬ validStream ts := by
    unfold intoCursor validStream
    cases ts.getLast? with
    | none => simp
    | some t =>
        by_cases ht : t.isEndOfFile = true <;> simp [ht]
  refine ⟨hcursor, ⟨?_, ?_⟩, ?_⟩
  · intro h
    rw [← hcursor]
    unfold parse at h
    cases hic : intoCursor ts with
    | none => rfl
    | some c =>
        rw [hic] at h
        exfalso
        have h' : Res.map (fun r => r.1) (parseLoop fuel ts c) =
            .err .invalidTokenStream := h
        cases hpl : parseLoop fuel ts c with
        | out =>
            rw [hpl] at h'
            cases h'
        | panic =>
            rw [hpl] at h'
            cases h'
        | err e =>
            rw [hpl] at h'
            simp only [Res.map] at h'
            cases h'
            exact parseLoop_not_inv fuel ts c hpl
        | ok a =>
            rw [hpl] at h'
            simp [Res.map] at h'
  · intro h
    have hnone : intoCursor ts = none := hcursor.mpr h
    unfold parse
    rw [hnone]
  · intro h
    cases hic : intoCursor ts with
    | none => exact absurd (hcursor.mp hic) (by simp [h])
    | some c =>
        have hc0 : c = 0 := by
          unfold intoCursor at hic
          revert hic
          cases ts.getLast? with
          | none => exact fun hic => by cases hic
          | some t =>
              show (if t.isEndOfFile = true then some 0 else none) = some c → c = 0
              intro hic
              split_ifs at hic
              cases hic
              rfl
        subst hc0
        unfold parse
        rw [hic]

/-- A valid token stream (its last token is `EndOfFile`) containing an
operator with no binary kind (`Eq`) after a complete left operand. -/
def divergentStream : List Token :=
  [Token.integer 1 (Span.new ⟨1, 0, 0⟩ ⟨1, 1, 1⟩),
   Token.operator .eq (Span.new ⟨1, 2, 2⟩ ⟨1, 3, 3⟩),
   Token.endOfFile ⟨1, 4, 4⟩]

theorem langScanLoop_underscore_out (fuel : Nat) :
    langScanLoop fuel ['_'] Location.sof = .out := by
  induction fuel with
  | zero => rfl
  | succ f ih =>
      show Res.map _ (langScanLoop f ['_'] Location.sof) = .out
      rw [ih]
      rfl

theorem binaryLoop_eq_out (fuel precedence : Nat) (left : Expression) :
    binaryLoop fuel divergentStream 1 precedence left = .out := by
  induction fuel with
  | zero => rfl
  | succ f ih =>
      show binaryLoop f divergentStream 1 precedence left = .out
      exact ih

theorem parseExpressionWithPrecedence_divergent_out (fuel : Nat) :
    parseExpressionWithPrecedence fuel divergentStream 0 0 = .out := by
  match fuel with
  | 0 => rfl
  | 1 => rfl
  | f + 2 =>
      show binaryLoop (f + 1) divergentStream 1 0
        (.integer 1 (Span.new ⟨1, 0, 0⟩ ⟨1, 1, 1⟩)) = .out
      exact binaryLoop_eq_out (f + 1) 0 _

theorem parseStatement_divergent_out (fuel : Nat) :
    parseStatement fuel divergentStream 0 = .out := by
  match fuel with
  | 0 => rfl
  | 1 => rfl
  | f + 2 =>
      show Res.bind (parseExpressionWithPrecedence f divergentStream 0 0) _ = .out
      rw [parseExpressionWithPrecedence_divergent_out f]
      rfl

theorem parseLoop_divergent_out (fuel : Nat) :
    parseLoop fuel divergentStream 0 = .out := by
  match fuel with
  | 0 => rfl
  | 1 => rfl
  | f + 2 =>
      show Res.bind (parseStatement (f + 1) divergentStream 0) _ = .out
      rw [parseStatement_divergent_out (f + 1)]
      rfl

/-- C2: the claim says `scan` and `parse` always terminate.  Both
diverge.  `lang/scan.rs`'s `scan_name` breaks its loop when
`!c.is_alphanumeric() || c == '_'` (`||` where the newer scanner has
`&&`), so on the source `"_"` it consumes nothing and the scan loop
emits empty identifiers forever.  `lang/parse.rs`'s
`parse_expression_with_precedence` executes `continue` when the peeked
operator has no binary kind (e.g. `Eq`), re-peeking the same token with
unchanged state forever; the stream `[Integer 1, Operator Eq,
EndOfFile]` is accepted by `into_cursor` but `parse` never returns on
it.  In the fuelled model: every fuel runs out on these inputs. -/
theorem claim_C2_scan_and_parse_diverge :
    (∀ fuel, langScan fuel "_" = .out) ∧
    (∀ fuel, parse divergentStream fuel = .out) := by
  constructor
  · intro fuel
    exact langScanLoop_underscore_out fuel
  · intro fuel
    show Res.map _ (parseLoop fuel divergentStream 0) = .out
    rw [parseLoop_divergent_out fuel]
    rfl

/-! Fuel sufficiency and the end-of-stream invariant of the newer
scanner (`syntax/scan.rs`), for claim C3. -/

theorem skipTrivia_length (rem : List Char) : ∀ (loc : Location) (flag : Bool),
    (skipTrivia rem loc flag).rem.length ≤ rem.length := by
  induction rem with
  | nil =>
      intro loc flag
      cases flag <;> simp [skipTrivia]
  | cons c cs ih =>
      intro loc flag
      cases flag <;> simp only [skipTrivia] <;> split
      · exact le_trans (ih _ _) (by simp)
      · split
        · exact le_trans (ih _ _) (by simp)
        · simp
      · exact le_trans (ih _ _) (by simp)
      · exact le_trans (ih _ _) (by simp)

theorem scanNameLoop_length (rem : List Char) : ∀ (loc : Location) (acc : List Char),
    (scanNameLoop rem loc acc).2.rem.length ≤ rem.length := by
  induction rem with
  | nil => intro loc acc; simp [scanNameLoop]
  | cons c cs ih =>
      intro loc acc
      simp only [scanNameLoop]
      split
      · simp
      · exact le_trans (ih _ _) (by simp)

theorem scanNumberLoop_length (rem : List Char) :
    ∀ (loc : Location) (hasDot : Bool) (acc : List Char),
    (scanNumberLoop rem loc hasDot acc).2.2.rem.length ≤ rem.length := by
  induction rem with
  | nil => intro loc hasDot acc; simp [scanNumberLoop]
  | cons c cs ih =>
      intro loc hasDot acc
      simp only [scanNumberLoop]
      split
      · exact le_trans (ih _ _ _) (by simp)
      · split
        · exact le_trans (ih _ _ _) (by simp)
        · simp

theorem scanStringLoop_tok_length (n : Nat) :
    ∀ (rem : List Char), rem.length ≤ n → ∀ (loc start : Location) (acc : List Char)
      (t : Token) (s : CState),
    scanStringLoop rem loc start acc = .tok t s → s.rem.length ≤ rem.length := by
  induction n with
  | zero =>
      intro rem hn loc start acc t s h
      have he : rem = [] := List.eq_nil_of_length_eq_zero (Nat.le_zero.mp hn)
      subst he
      rw [scanStringLoop.eq_1] at h
      cases h
  | succ n ih =>
      intro rem hn loc start acc t s h
      match rem, hn with
      | [], _ =>
          rw [scanStringLoop.eq_1] at h
          cases h
      | [c], hn =>
          rw [scanStringLoop.eq_2] at h
          split_ifs at h
          · cases h
            simp
          · rw [scanStringLoop.eq_1] at h
            cases h
      | c :: e :: cs', hn =>
          rw [scanStringLoop.eq_3] at h
          split_ifs at h
          · cases hu : unescape e with
            | some ch =>
                rw [hu] at h
                have h' : scanStringLoop cs' (advance (advance loc c) e) start (ch :: acc) =
                    .tok t s := h
                have hlen : cs'.length ≤ n := by
                  simp only [List.length_cons] at hn
                  omega
                have := ih cs' hlen _ _ _ _ _ h'
                simp only [List.length_cons]
                omega
            | none =>
                rw [hu] at h
                have h' : NRes.error
                    (ScanError.invalidEscapeSequence e
                      (Span.new start (advance (advance loc c) e))) = NRes.tok t s := h
                cases h'
          · cases h
            simp
          · have hlen : (e :: cs').length ≤ n := by
              simp only [List.length_cons] at hn ⊢
              omega
            have := ih (e :: cs') hlen _ _ _ _ _ h
            simp only [List.length_cons] at this ⊢
            omega

theorem scanPunctPair_some_length (op : Operator) (rem : List Char) (loc start : Location)
    (r : NRes) (h : scanPunctPair op rem loc start = some r) :
    ∀ t s, r = NRes.tok t s → s.rem.length ≤ rem.length := by
  intro t s ht
  subst ht
  cases rem with
  | nil => simp [scanPunctPair] at h
  | cons d ds =>
      simp only [scanPunctPair] at h
      split_ifs at h
      cases h
      simp

theorem scanPunct_tok_length (c : Char) (rem : List Char) (loc start : Location)
    (t : Token) (s : CState) (h : scanPunct c rem loc start = .tok t s) :
    s.rem.length ≤ rem.length := by
  unfold scanPunct at h
  by_cases h0 : c = '-'
  · rw [if_pos h0] at h
    revert h
    cases hp0 : scanPunctPair .minusEq rem loc start with
    | some r =>
        intro h
        exact scanPunctPair_some_length _ _ _ _ _ hp0 t s h
    | none =>
        intro h
        cases h
        exact le_refl _
  · rw [if_neg h0] at h
    by_cases h1 : c = '+'
    · rw [if_pos h1] at h
      revert h
      cases hp1 : scanPunctPair .plusEq rem loc start with
      | some r =>
          intro h
          exact scanPunctPair_some_length _ _ _ _ _ hp1 t s h
      | none =>
          intro h
          cases h
          exact le_refl _
    · rw [if_neg h1] at h
      by_cases h2 : c = '='
      · rw [if_pos h2] at h
        revert h
        cases hp2 : scanPunctPair .eq rem loc start with
        | some r =>
            intro h
            exact scanPunctPair_some_length _ _ _ _ _ hp2 t s h
        | none =>
            intro h
            cases h
            exact le_refl _
      · rw [if_neg h2] at h
        by_cases h3 : c = '*'
        · rw [if_pos h3] at h
          cases h
          exact le_refl _
        · rw [if_neg h3] at h
          by_cases h4 : c = '/'
          · rw [if_pos h4] at h
            cases h
            exact le_refl _
          · rw [if_neg h4] at h
            by_cases h5 : c = '{'
            · rw [if_pos h5] at h
              cases h
              exact le_refl _
            · rw [if_neg h5] at h
              by_cases h6 : c = '}'
              · rw [if_pos h6] at h
                cases h
                exact le_refl _
              · rw [if_neg h6] at h
                by_cases h7 : c = '['
                · rw [if_pos h7] at h
                  cases h
                  exact le_refl _
                · rw [if_neg h7] at h
                  by_cases h8 : c = ']'
                  · rw [if_pos h8] at h
                    cases h
                    exact le_refl _
                  · rw [if_neg h8] at h
                    by_cases h9 : c = '('
                    · rw [if_pos h9] at h
                      cases h
                      exact le_refl _
                    · rw [if_neg h9] at h
                      by_cases h10 : c = ')'
                      · rw [if_pos h10] at h
                        cases h
                        exact le_refl _
                      · rw [if_neg h10] at h
                        by_cases h11 : c = ':'
                        · rw [if_pos h11] at h
                          cases h
                          exact le_refl _
                        · rw [if_neg h11] at h
                          by_cases h12 : c = '.'
                          · rw [if_pos h12] at h
                            cases h
                            exact le_refl _
                          · rw [if_neg h12] at h
                            by_cases h13 : c = ','
                            · rw [if_pos h13] at h
                              cases h
                              exact le_refl _
                            · rw [if_neg h13] at h
                              cases h

theorem scanNameLoop_head_length (c : Char) (cs : List Char) (loc : Location)
    (acc : List Char) (hc : isAlphanumericChar c || c = '_') :
    (scanNameLoop (c :: cs) loc acc).2.rem.length ≤ cs.length := by
  simp only [scanNameLoop]
  split
  · rename_i hcon
    exfalso
    rcases Bool.or_eq_true_iff.mp hc with h1 | h1 <;> simp_all
  · exact scanNameLoop_length cs _ _

theorem scanNumberLoop_head_length (c : Char) (cs : List Char) (loc : Location)
    (hc : isNumericChar c || c = '.') :
    (scanNumberLoop (c :: cs) loc false []).2.2.rem.length ≤ cs.length := by
  simp only [scanNumberLoop]
  split
  · exact scanNumberLoop_length cs _ _ _
  · split
    · exact scanNumberLoop_length cs _ _ _
    · rename_i h1 h2
      exfalso
      rcases Bool.or_eq_true_iff.mp hc with h3 | h3 <;> simp_all

/-- Every token of the dispatch except `EndOfFile` consumes at least one
character. -/
theorem scanDispatch_tok_length (rem : List Char) (loc : Location) (t : Token) (s : CState)
    (h : scanDispatch rem loc = .tok t s) (hne : t.isEndOfFile = false) :
    s.rem.length < rem.length := by
  cases rem with
  | nil =>
      rw [scanDispatch.eq_1] at h
      cases h
      simp [Token.isEndOfFile] at hne
  | cons c cs =>
      rw [scanDispatch.eq_2] at h
      split_ifs at h with h1 h2 h3 h4
      · cases h
        simp
      · unfold scanString at h
        have := scanStringLoop_tok_length cs.length cs (le_refl _) _ _ _ _ _ h
        simp only [List.length_cons]
        omega
      · cases h
        have h5 : isAlphanumericChar c || c = '_' := by
          rcases Bool.or_eq_true_iff.mp h3 with ha | ha
          · simp [isAlphanumericChar, ha]
          · simp [ha]
        have := scanNameLoop_head_length c cs loc [] h5
        simp only [scanName, List.length_cons]
        omega
      · have hload := scanNumberLoop_head_length c cs loc h4
        simp only [scanNumberOrDot] at h
        split_ifs at h
        · cases h
          simp only [List.length_cons]
          omega
        · cases h
          simp only [List.length_cons]
          omega
        · revert h
          cases hm : parseI64 (scanNumberLoop (c :: cs) loc false []).1 with
          | some v =>
              intro h
              cases h
              simp only [List.length_cons]
              omega
          | none =>
              intro h
              cases h
      · have := scanPunct_tok_length c cs _ _ _ _ h
        simp only [List.length_cons]
        omega

/-- Every token except `EndOfFile` consumes at least one character. -/
theorem scanNextToken_tok_length (rem : List Char) (loc : Location) (t : Token) (s : CState)
    (h : scanNextToken rem loc = .tok t s) (hne : t.isEndOfFile = false) :
    s.rem.length < rem.length := by
  have hst := skipTrivia_length rem loc false
  unfold scanNextToken at h
  have := scanDispatch_tok_length _ _ _ _ h hne
  omega

/-- With fuel exceeding the number of remaining characters the scan loop
cannot run out. -/
theorem scanLoop_not_out (fuel : Nat) : ∀ (rem : List Char) (loc : Location),
    rem.length < fuel → scanLoop fuel rem loc ≠ .out := by
  induction fuel with
  | zero =>
      intro rem loc h
      omega
  | succ f ih =>
      intro rem loc h
      simp only [scanLoop]
      cases hn : scanNextToken rem loc with
      | panic => simp
      | error e => simp
      | tok t s =>
          by_cases he : t.isEndOfFile = true
          · simp [he]
          · have hlt : s.rem.length < f := by
              have := scanNextToken_tok_length rem loc t s hn (by simpa using he)
              omega
            have hne := ih s.rem s.loc hlt
            simp only [he, if_false, Bool.false_eq_true]
            cases hsl : scanLoop f s.rem s.loc <;> simp_all [Res.map]

/-- Whatever the scan loop returns with `ok`, it is a token list ending
in the `EndOfFile` token. -/
theorem scanLoop_ok_eof (fuel : Nat) : ∀ (rem : List Char) (loc : Location) (ts : List Token),
    scanLoop fuel rem loc = .ok ts →
    ∃ l loc', ts = l ++ [Token.endOfFile loc'] := by
  induction fuel with
  | zero =>
      intro rem loc ts h
      cases h
  | succ f ih =>
      intro rem loc ts h
      simp only [scanLoop] at h
      cases hn : scanNextToken rem loc with
      | panic =>
          rw [hn] at h
          cases h
      | error e =>
          rw [hn] at h
          cases h
      | tok t s =>
          rw [hn] at h
          by_cases he : t.isEndOfFile = true
          · simp only [he, if_true] at h
            cases h
            cases t with
            | endOfFile loc' => exact ⟨[], loc', rfl⟩
            | keyword k sp => simp [Token.isEndOfFile] at he
            | identifier i => simp [Token.isEndOfFile] at he
            | operator o sp => simp [Token.isEndOfFile] at he
            | punctuator p sp => simp [Token.isEndOfFile] at he
            | float l sp => simp [Token.isEndOfFile] at he
            | integer v sp => simp [Token.isEndOfFile] at he
            | bool b sp => simp [Token.isEndOfFile] at he
            | string v sp => simp [Token.isEndOfFile] at he
            | endOfLine sp => simp [Token.isEndOfFile] at he
          · simp only [he, Bool.false_eq_true, if_false] at h
            cases hsl : scanLoop f s.rem s.loc <;> rw [hsl] at h <;>
              simp only [Res.map] at h <;> cases h
            obtain ⟨l, loc', rfl⟩ := ih s.rem s.loc _ hsl
            exact ⟨t :: l, loc', rfl⟩

/-- C3 counterexample to the no-panic part: the pure-ASCII source
`"9999999999999999999"` scans to a single integer lexeme whose value
exceeds `i64::MAX = 9223372036854775807`, so
`lexeme.parse::<i64>().unwrap()` in `scan_number_or_dot` panics. -/
theorem claim_C3_counterexample_scan_panics_on_overflow :
    scan "9999999999999999999" = .panic :=
  rfl

/-- C3 (amended): for every source text, `scan` terminates and either
panics (numeric conversion only), returns `Err`, or returns `Ok` with a
non-empty token stream whose last token is `EndOfFile`. -/
theorem claim_C3_scan_ok_ends_with_eof (source : String) :
    scan source ≠ .out ∧
      ∀ ts, scan source = .ok ts →
        ts ≠ [] ∧ ∃ loc, ts.getLast? = some (.endOfFile loc) := by
  constructor
  · exact scanLoop_not_out _ _ _ (by omega)
  · intro ts h
    obtain ⟨l, loc', rfl⟩ := scanLoop_ok_eof _ _ _ _ h
    refine ⟨by simp, loc', ?_⟩
    simp

/-- Witness for C3's amended theorem at the concrete source `"1"`. -/
theorem claim_C3_scan_ok_ends_with_eof_witness :
    ([Token.integer 1 (Span.new ⟨1, 0, 0⟩ ⟨1, 1, 1⟩), Token.endOfFile ⟨1, 1, 1⟩] :
        List Token) ≠ [] ∧
      ∃ loc,
        ([Token.integer 1 (Span.new ⟨1, 0, 0⟩ ⟨1, 1, 1⟩),
          Token.endOfFile ⟨1, 1, 1⟩] : List Token).getLast? =
          some (.endOfFile loc) :=
  (claim_C3_scan_ok_ends_with_eof "1").2 _ rfl


/-! String-literal scanning against the spec's description, for
claim C6. -/

/-- Outcome of the spec's description of string-literal scanning. -/
inductive StrSpec where
  | ok (content : List Char) (rest : List Char)
  | invalidEscape (c : Char)
  | unterminated
deriving DecidableEq, Repr

/-- Statement-side reference function, following the spec's words for the
characters after the opening quote: consume until the closing quote,
translating the escapes `\n`, `\t`, `\r`, `\"`, `\\`; any other escaped
character is an invalid escape; reaching end of input before a closing
quote (also right after a backslash) is an unterminated string. -/
def stringSpec : List Char → StrSpec
  | [] => .unterminated
  | c :: cs =>
      if c = '\\' then
        match cs with
        | [] => .unterminated
        | e :: cs' =>
            match unescape e with
            | some ch =>
                match stringSpec cs' with
                | .ok content rest => .ok (ch :: content) rest
                | r => r
            | none => .invalidEscape e
      else if c = '"' then .ok [] cs
      else
        match stringSpec cs with
        | .ok content rest => .ok (c :: content) rest
        | r => r

theorem scanStringLoop_spec (n : Nat) : ∀ (cs : List Char), cs.length ≤ n →
    ∀ (loc start : Location) (acc : List Char),
    (∀ content rest, stringSpec cs = .ok content rest →
        ∃ sp s, scanStringLoop cs loc start acc =
            .tok (.string (String.mk (acc.reverse ++ content)) sp) s ∧ s.rem = rest) ∧
    (∀ e, stringSpec cs = .invalidEscape e →
        ∃ sp, scanStringLoop cs loc start acc = .error (.invalidEscapeSequence e sp)) ∧
    (stringSpec cs = .unterminated →
        ∃ sp, scanStringLoop cs loc start acc = .error (.unterminatedString sp)) := by
  induction n with
  | zero =>
      intro cs hn loc start acc
      have he : cs = [] := List.eq_nil_of_length_eq_zero (Nat.le_zero.mp hn)
      subst he
      refine ⟨?_, ?_, ?_⟩
      · intro content rest h
        simp [stringSpec] at h
      · intro e h
        simp [stringSpec] at h
      · intro _
        exact ⟨_, rfl⟩
  | succ n ih =>
      intro cs hn loc start acc
      match cs, hn with
      | [], _ =>
          refine ⟨?_, ?_, ?_⟩
          · intro content rest h
            simp [stringSpec] at h
          · intro e h
            simp [stringSpec] at h
          · intro _
            exact ⟨_, rfl⟩
      | [c], hn =>
          by_cases hc : c = '\\'
          · refine ⟨?_, ?_, ?_⟩
            · intro content rest h
              simp [stringSpec, hc] at h
            · intro e h
              simp [stringSpec, hc] at h
            · intro _
              rw [scanStringLoop.eq_2, if_pos hc]
              exact ⟨_, rfl⟩
          · by_cases hq : c = '"'
            · refine ⟨?_, ?_, ?_⟩
              · intro content rest h
                simp only [stringSpec, if_neg hc, if_pos hq, StrSpec.ok.injEq] at h
                obtain ⟨rfl, rfl⟩ := h
                rw [scanStringLoop.eq_2, if_neg hc, if_pos hq]
                refine ⟨Span.new start (advance loc c), ⟨[], advance loc c⟩, ?_, rfl⟩
                simp
              · intro e h
                simp [stringSpec, hc, hq] at h
              · intro h
                simp [stringSpec, hc, hq] at h
            · refine ⟨?_, ?_, ?_⟩
              · intro content rest h
                simp [stringSpec, hc, hq] at h
              · intro e h
                simp [stringSpec, hc, hq] at h
              · intro _
                rw [scanStringLoop.eq_2, if_neg hc, if_neg hq, scanStringLoop.eq_1]
                exact ⟨_, rfl⟩
      | c :: e :: cs', hn =>
          have hlen' : cs'.length ≤ n := by
            simp only [List.length_cons] at hn
            omega
          have hlen2 : (e :: cs').length ≤ n := by
            simp only [List.length_cons] at hn ⊢
            omega
          by_cases hc : c = '\\'
          · cases hu : unescape e with
            | some ch =>
                obtain ⟨ihok, ihinv, ihunt⟩ :=
                  ih cs' hlen' (advance (advance loc c) e) start (ch :: acc)
                cases hs : stringSpec cs' with
                | ok content rest =>
                    refine ⟨?_, ?_, ?_⟩
                    · intro content0 rest0 h
                      simp only [stringSpec, if_pos hc, hu, hs, StrSpec.ok.injEq] at h
                      obtain ⟨rfl, rfl⟩ := h
                      obtain ⟨sp, s, hrun, hrem⟩ := ihok content rest hs
                      rw [scanStringLoop.eq_3, if_pos hc, hu]
                      rw [show (ch :: acc).reverse ++ content =
                          acc.reverse ++ ch :: content by simp] at hrun
                      exact ⟨sp, s, hrun, hrem⟩
                    · intro e0 h
                      simp [stringSpec, hc, hu, hs] at h
                    · intro h
                      simp [stringSpec, hc, hu, hs] at h
                | invalidEscape e0 =>
                    refine ⟨?_, ?_, ?_⟩
                    · intro content0 rest0 h
                      simp [stringSpec, hc, hu, hs] at h
                    · intro e1 h
                      simp only [stringSpec, if_pos hc, hu, hs,
                        StrSpec.invalidEscape.injEq] at h
                      subst h
                      obtain ⟨sp, hrun⟩ := ihinv _ hs
                      rw [scanStringLoop.eq_3, if_pos hc, hu]
                      exact ⟨sp, hrun⟩
                    · intro h
                      simp [stringSpec, hc, hu, hs] at h
                | unterminated =>
                    refine ⟨?_, ?_, ?_⟩
                    · intro content0 rest0 h
                      simp [stringSpec, hc, hu, hs] at h
                    · intro e1 h
                      simp [stringSpec, hc, hu, hs] at h
                    · intro _
                      obtain ⟨sp, hrun⟩ := ihunt hs
                      rw [scanStringLoop.eq_3, if_pos hc, hu]
                      exact ⟨sp, hrun⟩
            | none =>
                refine ⟨?_, ?_, ?_⟩
                · intro content0 rest0 h
                  simp [stringSpec, hc, hu] at h
                · intro e1 h
                  simp only [stringSpec, if_pos hc, hu,
                    StrSpec.invalidEscape.injEq] at h
                  subst h
                  rw [scanStringLoop.eq_3, if_pos hc, hu]
                  exact ⟨_, rfl⟩
                · intro h
                  simp [stringSpec, hc, hu] at h
          · by_cases hq : c = '"'
            · refine ⟨?_, ?_, ?_⟩
              · intro content rest h
                simp only [stringSpec, if_neg hc, if_pos hq, StrSpec.ok.injEq] at h
                obtain ⟨rfl, rfl⟩ := h
                rw [scanStringLoop.eq_3, if_neg hc, if_pos hq]
                refine ⟨Span.new start (advance loc c), ⟨e :: cs', advance loc c⟩, ?_, rfl⟩
                simp
              · intro e1 h
                simp [stringSpec, hc, hq] at h
              · intro h
                simp [stringSpec, hc, hq] at h
            · obtain ⟨ihok, ihinv, ihunt⟩ :=
                ih (e :: cs') hlen2 (advance loc c) start (c :: acc)
              cases hs : stringSpec (e :: cs') with
              | ok content rest =>
                  refine ⟨?_, ?_, ?_⟩
                  · intro content0 rest0 h
                    simp only [stringSpec, if_neg hc, if_neg hq, hs,
                      StrSpec.ok.injEq] at h
                    obtain ⟨rfl, rfl⟩ := h
                    obtain ⟨sp, s, hrun, hrem⟩ := ihok content rest hs
                    rw [scanStringLoop.eq_3, if_neg hc, if_neg hq]
                    rw [show (c :: acc).reverse ++ content =
                        acc.reverse ++ c :: content by simp] at hrun
                    exact ⟨sp, s, hrun, hrem⟩
                  · intro e1 h
                    simp [stringSpec, hc, hq, hs] at h
                  · intro h
                    simp [stringSpec, hc, hq, hs] at h
              | invalidEscape e0 =>
                  refine ⟨?_, ?_, ?_⟩
                  · intro content0 rest0 h
                    simp [stringSpec, hc, hq, hs] at h
                  · intro e1 h
                    simp only [stringSpec, if_neg hc, if_neg hq, hs,
                      StrSpec.invalidEscape.injEq] at h
                    subst h
                    obtain ⟨sp, hrun⟩ := ihinv _ hs
                    rw [scanStringLoop.eq_3, if_neg hc, if_neg hq]
                    exact ⟨sp, hrun⟩
                  · intro h
                    simp [stringSpec, hc, hq, hs] at h
              | unterminated =>
                  refine ⟨?_, ?_, ?_⟩
                  · intro content0 rest0 h
                    simp [stringSpec, hc, hq, hs] at h
                  · intro e1 h
                    simp [stringSpec, hc, hq, hs] at h
                  · intro _
                    obtain ⟨sp, hrun⟩ := ihunt hs
                    rw [scanStringLoop.eq_3, if_neg hc, if_neg hq]
                    exact ⟨sp, hrun⟩

/-- C6: on a double quote the scanner consumes characters until the
closing quote, translating the escapes `\n`, `\t`, `\r`, `\"`, `\\`;
any other escaped character yields the `InvalidEscapeSequence` error;
reaching end of input before a closing quote yields the
`UnterminatedString` error — never a panic and never a truncated
`String` token.  Stated as agreement of `scan_string` with the
reference function `stringSpec`, which has exactly those three
outcomes. -/
theorem claim_C6_scan_string_spec (cs : List Char) (loc : Location) :
    (∀ content rest, stringSpec cs = .ok content rest →
        ∃ sp s, scanString ('"' :: cs) loc =
            .tok (.string (String.mk content) sp) s ∧ s.rem = rest) ∧
    (∀ e, stringSpec cs = .invalidEscape e →
        ∃ sp, scanString ('"' :: cs) loc = .error (.invalidEscapeSequence e sp)) ∧
    (stringSpec cs = .unterminated →
        ∃ sp, scanString ('"' :: cs) loc = .error (.unterminatedString sp)) := by
  have h := scanStringLoop_spec cs.length cs (le_refl _) (advance loc '"') loc []
  simpa [scanString] using h

/-- Witness for C6 at the concrete input `"a\nb"` followed by a closing
quote: the escape translates and the token content is `a`, newline,
`b`. -/
theorem claim_C6_scan_string_spec_witness :
    ∃ sp s, scanString ('"' :: ['a', '\\', 'n', 'b', '"', 'x']) Location.sof =
        .tok (.string (String.mk ['a', '\n', 'b']) sp) s ∧ s.rem = ['x'] :=
  (claim_C6_scan_string_spec ['a', '\\', 'n', 'b', '"', 'x'] Location.sof).1
    ['a', '\n', 'b'] ['x'] rfl


set_option maxHeartbeats 4000000 in
/-- C5: `"a + 2 * (3 + b) - 3"` parses (via scan and parse) to the tree
`((a + (2 * (3 + b))) - 3)`: `*` binds tighter than `+`/`-`, and
`+`/`-` associate to the left. -/
theorem claim_C5_precedence_climbing_example :
    (scanAndParse "a + 2 * (3 + b) - 3" 64).map stmtShapeList =
      .ok [.expression (.binary .minus
        (.binary .plus (.identifier "a")
          (.binary .star (.integer 2) (.binary .plus (.integer 3) (.identifier "b"))))
        (.integer 3))] :=
  rfl

set_option maxHeartbeats 4000000 in
/-- C7: `"with a: 3, b: 4, {}"` parses to one `With` statement with
exactly the two properties `a ↦ Integer 3` and `b ↦ Integer 4` and an
empty block; the trailing comma before `{` produces no third
property. -/
theorem claim_C7_with_statement_trailing_comma :
    (scanAndParse "with a: 3, b: 4, {}" 64).map stmtShapeList =
      .ok [.withS [("a", .integer 3), ("b", .integer 4)] []] :=
  rfl

/-- C10: the claim says `Span::len` returns end index minus start index
without panicking or wrapping.  The code computes
`self.start.index - self.end.index` — the operands are reversed — so for
the one-byte span `0..1` (which satisfies the documented invariant
`start.byte_index <= end.byte_index`) the `u32` subtraction underflows:
it panics in a debug build (`none` in the checked model) and wraps to
`2^32 - 1` in a release build, where the documented length is `1`.
Only empty spans escape the underflow. -/
theorem claim_C10_span_len_reversed_operands :
    Span.lenSpec (Span.new ⟨1, 0, 0⟩ ⟨1, 1, 1⟩) = 1 ∧
    Span.lenChecked (Span.new ⟨1, 0, 0⟩ ⟨1, 1, 1⟩) = none ∧
    Span.lenWrap (Span.new ⟨1, 0, 0⟩ ⟨1, 1, 1⟩) = 4294967295 :=
  ⟨rfl, rfl, by decide⟩

/-- Witness for C4's statement-parsing clause at the stream `[EndOfFile]`. -/
theorem claim_C4_invalid_token_stream_exactly_witness :
    parse [Token.endOfFile Location.sof] 1 =
      Res.map (fun r => r.1) (parseLoop 1 [Token.endOfFile Location.sof] 0) :=
  (claim_C4_invalid_token_stream_exactly [Token.endOfFile Location.sof] 1).2.2
    ⟨Token.endOfFile Location.sof, rfl, rfl⟩

/-- A valid token stream (it ends in `EndOfFile`) whose token spans are
not in source order. -/
def unorderedStream : List Token :=
  [Token.integer 1 (Span.new ⟨1, 100, 100⟩ ⟨1, 101, 101⟩),
   Token.integer 2 (Span.new ⟨1, 0, 0⟩ ⟨1, 1, 1⟩),
   Token.endOfFile ⟨1, 102, 102⟩]

/-- C8 counterexample: the claim quantifies over all valid token
streams, but on the valid stream `unorderedStream` parse returns two
statements with start positions `100` and then `0` — neither
non-decreasing nor non-overlapping in start position. -/
theorem claim_C8_counterexample_unordered_stream :
    validStream unorderedStream ∧
    (parse unorderedStream 16).map (List.map stmtStartIndex) = .ok [100, 0] ∧
    ¬ List.Pairwise (· ≤ ·) ([100, 0] : List Nat) :=
  ⟨⟨Token.endOfFile ⟨1, 102, 102⟩, rfl, rfl⟩, rfl, by decide⟩

/-- C8 (amended): for valid token streams whose token span start
indices are strictly increasing in stream order — as all scanner-built
streams are — `parse` returns statements whose start positions are
strictly increasing: non-decreasing and non-overlapping in start
position, i.e. in source order. -/
theorem claim_C8_statements_in_source_order (ts : List Token) (fuel : Nat)
    (stmts : List Statement)
    (hmono : List.Pairwise (fun a b => a.span.start.index < b.span.start.index) ts)
    (hok : parse ts fuel = .ok stmts) :
    List.Pairwise (· < ·) (stmts.map stmtStartIndex) := by
  obtain ⟨p', hloop⟩ := parse_ok_elim hok
  obtain ⟨_, hchain, _⟩ := parseLoop_inv fuel ts 0 (by omega) stmts p' hloop
  exact stmtChain_pairwise hmono hchain

/-- Witness for C8's amended theorem on the scan of `"1 2"`: two
statements with strictly increasing start positions 0 and 2. -/
theorem claim_C8_statements_in_source_order_witness :
    List.Pairwise (· < ·)
      (List.map stmtStartIndex
        [Statement.expression (.integer 1 (Span.new ⟨1, 0, 0⟩ ⟨1, 1, 1⟩)),
         Statement.expression (.integer 2 (Span.new ⟨1, 2, 2⟩ ⟨1, 3, 3⟩))]) :=
  claim_C8_statements_in_source_order
    [Token.integer 1 (Span.new ⟨1, 0, 0⟩ ⟨1, 1, 1⟩),
     Token.integer 2 (Span.new ⟨1, 2, 2⟩ ⟨1, 3, 3⟩),
     Token.endOfFile ⟨1, 3, 3⟩] 16 _ (by decide) rfl

/-- C9: the scanner's operator tables emit only `Minus`, `Plus`,
`Star`, `Slash`, `Assign`, `MinusEq`, `PlusEq` and `Eq` — never
`Exclamation`, the only operator with a prefix kind.  Hence for every
source text on which `scan` succeeds: the stream has no `Exclamation`
operator, `parse` never constructs a `Prefix` AST node, and any
operator token in prefix position yields `ExpectedExpression`. -/
theorem claim_C9_prefix_unreachable (source : String) (ts : List Token)
    (hscan : scan source = .ok ts) :
    tokensNoExcl ts = true ∧
    (∀ fuel stmts, parse ts fuel = .ok stmts → stmtsNoPrefix stmts = true) ∧
    (∀ p op span fuel, tsGet ts p = some (.operator op span) →
        parsePrefixExpression (fuel + 1) ts p =
          .err (.expectedExpression (.operator op span))) := by
  have hts : tokensNoExcl ts = true := scanLoop_no_excl _ _ _ _ hscan
  refine ⟨hts, ?_, ?_⟩
  · intro fuel stmts hok
    obtain ⟨p', hloop⟩ := parse_ok_elim hok
    obtain ⟨_, _, hnp⟩ := parseLoop_inv fuel ts 0 (by omega) stmts p' hloop
    exact hnp hts
  · intro p op span fuel htok
    have hne : op.intoPrefixOperatorKind = none := by
      have hx := tsGet_no_excl hts htok
      cases op <;> simp [Operator.intoPrefixOperatorKind]
      simp [Token.isOperator] at hx
    have hnext : nextT ts p = .ok (.operator op span, p + 1) := by
      unfold nextT ofPanic cursorNext
      rw [htok]
    simp only [parsePrefixExpression, hnext, Res.bind_ok]
    simp [hne]

/-- Witness for C9 at the source `"1 + 2"`: the scanned stream has no
`Exclamation` operator, the parse contains no `Prefix` node, and the
`Plus` operator token at stream index 1 in prefix position yields
`ExpectedExpression`. -/
theorem claim_C9_prefix_unreachable_witness :
    ∃ ts, scan "1 + 2" = .ok ts ∧ tokensNoExcl ts = true ∧
      (∃ stmts, parse ts 16 = .ok stmts ∧ stmtsNoPrefix stmts = true) ∧
      ∃ span, tsGet ts 1 = some (.operator .plus span) ∧
        parsePrefixExpression 9 ts 1 =
          .err (.expectedExpression (.operator .plus span)) := by
  refine ⟨_, rfl, (claim_C9_prefix_unreachable "1 + 2" _ rfl).1,
    ⟨_, rfl, (claim_C9_prefix_unreachable "1 + 2" _ rfl).2.1 16 _ rfl⟩,
    ⟨_, rfl, (claim_C9_prefix_unreachable "1 + 2" _ rfl).2.2 1 .plus _ 8 rfl⟩⟩

end Stellar
